import Mathlib

/-!
# Order-book engine of `stock_trading.cpp`

The C++ program keeps a global table of 1024 order books.  Every book owns two
singly linked lists of `Order` nodes, reached from `buyHead` and `sellHead`.
`addOrder` links a fresh node into one list of one book, `matchOrder` walks over
all books and fills crossing head orders.

The development below embeds the code as it runs when calls are executed one
after another, and the matching loop of one book also as it runs in several threads:

* a linked list reached from a head pointer is the `List` of its nodes, head first;
* `int` fields are `Int`; prices are only compared. `matchLoop` subtracts quantities
  over exact integers, which is what lines 63-64 compute as long as no subtraction
  leaves the `int` range, in particular whenever both quantities are non-negative
  (`sub_min_in_range`); `matchLoop32` subtracts in 32-bit arithmetic that wraps
  around, and the two loops agree on non-negative quantities
  (`matchLoop32_eq_matchLoop`);
* `std::hash<std::string>` is implementation defined and is a parameter `hash`;
* with no other thread running, the value a compare-and-swap expects is the value
  it finds, so the exchange takes place: `insertOrder` is one pass of the retry loop
  of `addOrder` ending in a successful exchange (a failed weak exchange would only
  repeat the same search from the head), and `afterFill` unlinks a filled head;
* `addLoop` is the retry loop of `addOrder` with the outcome of every exchange, and
  the chain read after a failed one, given as inputs;
* `Machine` runs lines 57-77 on one book with several threads, one step per access
  to the shared memory, nodes being named by their position in that memory.
-/

namespace StockTrading

/-! ## Data model -/

/-- An order node (`struct Order`); the `next` link is the tail of the list holding it. -/
structure Order where
  isBuy : Bool
  quantity : Int
  price : Int
  deriving DecidableEq, Repr

/-- One order book (`struct OrderBook`): the nodes reachable from the two heads. -/
structure OrderBook where
  buyHead : List Order
  sellHead : List Order
  deriving DecidableEq, Repr

/-- Size of the global table (`const int NUM_TICKERS = 1024`). -/
def NUM_TICKERS : Nat := 1024

/-- The global `std::vector<OrderBook> orderBooks(NUM_TICKERS)`, as the map from each
of its 1024 slots to the book stored there. -/
abbrev Books := Fin NUM_TICKERS → OrderBook

/-- State of `orderBooks` at program start: every head is `nullptr`. -/
def emptyBooks : Books := fun _ => ⟨[], []⟩

/-! ## addOrder -/

/-- Slot selected by `hash % NUM_TICKERS` (lines 27-29). -/
def bookIndex (hash : String → Nat) (ticker : String) : Fin NUM_TICKERS :=
  ⟨hash ticker % NUM_TICKERS, Nat.mod_lt _ (by decide)⟩

/-- Loop condition of the search at line 39: keep walking past `current`. -/
def walksPast (isBuy : Bool) (price : Int) (current : Order) : Bool :=
  (isBuy && decide (current.price > price)) || (!isBuy && decide (current.price < price))

/-- Lines 35-48 with a successful compare-and-swap: walk from the head while
`walksPast` holds, then link `newOrder` in front of the node where the walk stopped. -/
def insertOrder (newOrder : Order) : List Order → List Order
  | [] => [newOrder]
  | current :: rest =>
    if walksPast newOrder.isBuy newOrder.price current then
      current :: insertOrder newOrder rest
    else
      newOrder :: current :: rest

/-- Effect of `addOrder` on the selected book (lines 31-52). -/
def addToBook (book : OrderBook) (isBuy : Bool) (qty price : Int) : OrderBook :=
  if isBuy then
    { book with buyHead := insertOrder ⟨isBuy, qty, price⟩ book.buyHead }
  else
    { book with sellHead := insertOrder ⟨isBuy, qty, price⟩ book.sellHead }

/-- The function `addOrder(isBuy, ticker, qty, price)` acting on the table. -/
def addOrder (hash : String → Nat) (books : Books)
    (isBuy : Bool) (ticker : String) (qty price : Int) : Books :=
  Function.update books (bookIndex hash ticker)
    (addToBook (books (bookIndex hash ticker)) isBuy qty price)

/-! ## matchOrder -/

/-- Record of one execution of lines 61-64: the two head orders as they were
read and the computed `matchQty`. The program keeps no such record; it is used
to speak about the fills a call performs. -/
structure Fill where
  buy : Order
  sell : Order
  matchQty : Int
  deriving DecidableEq, Repr

/-- List left behind a head after its quantity became `q` (lines 66-73):
the node is unlinked when `q = 0`, otherwise it stays with the new quantity. -/
def afterFill (head : Order) (rest : List Order) (q : Int) : List Order :=
  if q = 0 then rest else { head with quantity := q } :: rest

/-- The `while (buy && sell)` loop of one book (lines 57-77), returning the two
lists at loop exit together with the fills performed, oldest first. -/
def matchLoop : List Order → List Order → (List Order × List Order) × List Fill
  | buy :: buys, sell :: sells =>
    if buy.price ≥ sell.price then
      let matchQty := min buy.quantity sell.quantity
      let r := matchLoop (afterFill buy buys (buy.quantity - matchQty))
                 (afterFill sell sells (sell.quantity - matchQty))
      (r.1, ⟨buy, sell, matchQty⟩ :: r.2)
    else
      ((buy :: buys, sell :: sells), [])
  | [], sells => (([], sells), [])
  | buys, [] => ((buys, []), [])
termination_by buys sells => buys.length + sells.length
decreasing_by
  simp only [afterFill, List.length_cons]
  split <;> split <;> (try simp only [List.length_cons]) <;> omega

/-- Body of the `for` loop of `matchOrder` for one book. -/
def matchBook (book : OrderBook) : OrderBook :=
  ⟨(matchLoop book.buyHead book.sellHead).1.1, (matchLoop book.buyHead book.sellHead).1.2⟩

/-- Fills performed in one book by one `matchOrder` call. -/
def bookFills (book : OrderBook) : List Fill :=
  (matchLoop book.buyHead book.sellHead).2

/-- The function `matchOrder()`: the loop body applied to every book of the table. -/
def matchOrder (books : Books) : Books := fun i => matchBook (books i)

/-! ## Quantities, sortedness and sequences of calls -/

/-- Sum of the quantities of the nodes of one list. -/
def totalQty (l : List Order) : Int := (l.map Order.quantity).sum

/-- Sum of the quantities of all orders resident in a book. -/
def residentQty (book : OrderBook) : Int := totalQty book.buyHead + totalQty book.sellHead

/-- Sum of `matchQty` over a list of fills. -/
def filledQty (fills : List Fill) : Int := (fills.map Fill.matchQty).sum

/-- Buy list order: prices descend (weakly) from the head. -/
abbrev SortedBuy (l : List Order) : Prop := l.Pairwise (fun a b => a.price ≥ b.price)

/-- Sell list order: prices ascend (weakly) from the head. -/
abbrev SortedSell (l : List Order) : Prop := l.Pairwise (fun a b => a.price ≤ b.price)

/-- The list of a book that a call with flag `isBuy` works on (line 32). -/
def sideList (isBuy : Bool) (book : OrderBook) : List Order :=
  if isBuy then book.buyHead else book.sellHead

/-- Heads of a book do not cross: a side is empty or best bid < best ask. -/
def NoCrossingHeads (book : OrderBook) : Prop :=
  book.buyHead = [] ∨ book.sellHead = [] ∨
    ∃ buy sell, book.buyHead.head? = some buy ∧ book.sellHead.head? = some sell ∧
      buy.price < sell.price

/-- One call made by a client of the engine. -/
inductive Call where
  | add (isBuy : Bool) (ticker : String) (qty price : Int)
  | matchAll
  deriving DecidableEq, Repr

/-- The table together with a history per book: the orders handed to `addOrder`
and the fills performed by `matchOrder`, both oldest first. -/
structure Run where
  books : Books
  submitted : Fin NUM_TICKERS → List Order
  fills : Fin NUM_TICKERS → List Fill

/-- Program start: empty table, empty history. -/
def Run.start : Run := ⟨emptyBooks, fun _ => [], fun _ => []⟩

/-- Executes one call and extends the history. -/
def Run.step (hash : String → Nat) (r : Run) : Call → Run
  | .add isBuy ticker qty price =>
    { books := addOrder hash r.books isBuy ticker qty price
      submitted := Function.update r.submitted (bookIndex hash ticker)
        (r.submitted (bookIndex hash ticker) ++ [⟨isBuy, qty, price⟩])
      fills := r.fills }
  | .matchAll =>
    { books := matchOrder r.books
      submitted := r.submitted
      fills := fun i => r.fills i ++ bookFills (r.books i) }

/-- Executes the calls one after another from program start. -/
def execute (hash : String → Nat) (calls : List Call) : Run :=
  calls.foldl (Run.step hash) Run.start

/-- Quantity submitted to a book on one side. -/
def submittedQty (isBuy : Bool) (orders : List Order) : Int :=
  totalQty (orders.filter (fun o => o.isBuy == isBuy))

/-! ## Retry loop of addOrder with compare-and-swap outcomes -/

/-- Local search state of `addOrder`: `walked` holds the nodes the search has passed,
head first (`prev` is the last of them, `nullptr` when there is none), and `ahead` is
the chain that starts at `current`. -/
structure Cursor where
  walked : List Order
  ahead : List Order
  deriving DecidableEq, Repr

/-- Inner loop of lines 39-42, started with `walked` behind `prev` and the chain at
`current`: advance while `walksPast` holds. -/
def search (newOrder : Order) (walked : List Order) : List Order → Cursor
  | [] => ⟨walked, []⟩
  | current :: rest =>
    if walksPast newOrder.isBuy newOrder.price current then
      search newOrder (walked ++ [current]) rest
    else
      ⟨walked, current :: rest⟩

/-- Outcome of one `compare_exchange_weak` (line 45 or 47): the exchange took place,
or it failed and the `head.load()` of line 50 then reads the chain `listNow`. -/
inductive Cas where
  | success
  | failure (listNow : List Order)
  deriving DecidableEq, Repr

/-- Outer loop of lines 37-52, entered with the search state `(prev, current)` and
fed the outcomes of its exchanges in order. A success links `newOrder` between `prev`
and `current` and leaves the loop; a failure runs lines 50-51. The result is `none`
when the outcomes end before a success, the loop then still being under way. -/
def addLoop (newOrder : Order) : Cursor → List Cas → Option (List Order)
  | _, [] => none
  | c, .success :: _ =>
    some ((search newOrder c.walked c.ahead).walked
      ++ newOrder :: (search newOrder c.walked c.ahead).ahead)
  | _, .failure listNow :: rest => addLoop newOrder ⟨[], listNow⟩ rest

/-- Lines 35-52 on a list whose head reads `list` at line 35. -/
def addAttempts (newOrder : Order) (list : List Order) (outcomes : List Cas) :
    Option (List Order) :=
  addLoop newOrder ⟨[], list⟩ outcomes

/-- Chain read by the last restart of the search: `list` was read at line 35 and
`seen` lists the chains read at line 50 after each failed exchange, in order. -/
def lastSeen : List Order → List (List Order) → List Order
  | list, [] => list
  | _, listNow :: later => lastSeen listNow later

/-! ## Further predicates -/

/-- Every order of the list has quantity at least 1. -/
def AllPositive (l : List Order) : Prop := ∀ o ∈ l, 1 ≤ o.quantity

/-- The fill took a positive quantity that neither order lacked. -/
def Fill.Sound (f : Fill) : Prop :=
  1 ≤ f.matchQty ∧ f.matchQty ≤ f.buy.quantity ∧ f.matchQty ≤ f.sell.quantity

/-- The call submits a quantity of at least 1 (a `matchOrder` call submits nothing). -/
def Call.SubmitsPositive : Call → Prop
  | .add _ _ qty _ => 1 ≤ qty
  | .matchAll => True

/-- The list `after` is what consuming from the head leaves of `before`: a suffix of
it, or a suffix whose first order has a smaller quantity, still at least 1, and the
same side and price. -/
def ConsumedFromHead (before after : List Order) : Prop :=
  after <:+ before ∨
    ∃ head rest q, head :: rest <:+ before ∧ after = ⟨head.isBuy, q, head.price⟩ :: rest ∧
      1 ≤ q ∧ q < head.quantity

/-- Result of an `int` subtraction that wraps around 32 bits. -/
def wrapInt32 (x : Int) : Int := (x + 2 ^ 31) % 2 ^ 32 - 2 ^ 31

/-! ## The matching loop in 32-bit arithmetic -/

/-- The loop of lines 57-77 with the subtractions of lines 63-64 carried out on 32-bit
`int`, wrapping around; everything else is as in `matchLoop`. Both loops agree as long
as no subtraction leaves the `int` range (`matchLoop32_eq_matchLoop`). -/
def matchLoop32 : List Order → List Order → (List Order × List Order) × List Fill
  | buy :: buys, sell :: sells =>
    if buy.price ≥ sell.price then
      let matchQty := min buy.quantity sell.quantity
      let r := matchLoop32 (afterFill buy buys (wrapInt32 (buy.quantity - matchQty)))
                 (afterFill sell sells (wrapInt32 (sell.quantity - matchQty)))
      (r.1, ⟨buy, sell, matchQty⟩ :: r.2)
    else
      ((buy :: buys, sell :: sells), [])
  | [], sells => (([], sells), [])
  | buys, [] => ((buys, []), [])
termination_by buys sells => buys.length + sells.length
decreasing_by
  simp only [afterFill, wrapInt32, List.length_cons]
  split <;> split <;> (try simp only [List.length_cons]) <;> omega

/-- Body of the `for` loop of `matchOrder` for one book, in 32-bit arithmetic. -/
def matchBook32 (book : OrderBook) : OrderBook :=
  ⟨(matchLoop32 book.buyHead book.sellHead).1.1, (matchLoop32 book.buyHead book.sellHead).1.2⟩

/-- Fills performed in one book by one `matchOrder` call, in 32-bit arithmetic. -/
def bookFills32 (book : OrderBook) : List Fill :=
  (matchLoop32 book.buyHead book.sellHead).2

/-- The function `matchOrder()` in 32-bit arithmetic. -/
def matchOrder32 (books : Books) : Books := fun i => matchBook32 (books i)

/-- Executes one call in 32-bit arithmetic and extends the history. -/
def Run.step32 (hash : String → Nat) (r : Run) : Call → Run
  | .add isBuy ticker qty price =>
    { books := addOrder hash r.books isBuy ticker qty price
      submitted := Function.update r.submitted (bookIndex hash ticker)
        (r.submitted (bookIndex hash ticker) ++ [⟨isBuy, qty, price⟩])
      fills := r.fills }
  | .matchAll =>
    { books := matchOrder32 r.books
      submitted := r.submitted
      fills := fun i => r.fills i ++ bookFills32 (r.books i) }

/-- Executes the calls one after another from program start, in 32-bit arithmetic. -/
def execute32 (hash : String → Nat) (calls : List Call) : Run :=
  calls.foldl (Run.step32 hash) Run.start

/-- Every quantity of the list is a non-negative `int`. -/
def InRange (l : List Order) : Prop := ∀ o ∈ l, 0 ≤ o.quantity ∧ o.quantity < 2 ^ 31

/-- The call submits a quantity that is a non-negative `int`. -/
def Call.SubmitsNonneg : Call → Prop
  | .add _ _ qty _ => 0 ≤ qty ∧ qty < 2 ^ 31
  | .matchAll => True

/-- Calls of the scenario of `twoBidsOneAsk` followed by one `matchOrder` call. -/
def scenarioCalls : List Call :=
  [.add true "X" 10 100, .add true "X" 5 101, .add false "X" 8 99, .matchAll]

/-- Table holding a buy of quantity -5 at 100 and a sell of quantity 3 at 99 for "X". -/
def negativeBid (hash : String → Nat) : Books :=
  addOrder hash (addOrder hash emptyBooks true "X" (-5) 100) false "X" 3 99

/-! ## Threads in the matching loop of one book

Lines 57-77 run by several threads on the same book. Nodes live in a memory and are
named by their position in it; a thread takes one step per access to the memory, so
that any interleaving of the accesses of different threads is a schedule. Freed nodes
keep their last contents, and the run records every unlink, every `delete`, every
`delete` of a node that another thread still holds, and every access to a freed node. -/

/-- A node in memory: the fields of `struct Order` that the matching loop uses. -/
structure Cell where
  quantity : Int
  price : Int
  next : Option Nat
  deriving DecidableEq, Repr

/-- The memory shared by the threads that work on one book: the nodes ever allocated,
the two heads, and the record of what happened to the nodes, oldest first. -/
structure Shared where
  cells : List Cell
  buyHead : Option Nat
  sellHead : Option Nat
  unlinked : List Nat
  freed : List Nat
  usedAfterFree : List Nat
  deriving DecidableEq, Repr

/-- Places in lines 57-77 where a thread is about to access the memory. -/
inductive Pc where
  | loadBuy
  | loadSell
  | readBuyPrice
  | readSellPrice
  | readBuyQty
  | readSellQty
  | readBuyForSub
  | writeBuy
  | readSellForSub
  | writeSell
  | testBuy
  | readBuyNext
  | casBuy
  | deleteBuy
  | testSell
  | readSellNext
  | casSell
  | deleteSell
  | reloadBuy
  | reloadSell
  | done
  deriving DecidableEq, Repr

/-- Local variables of a thread in the matching loop: the pointers `buy` and `sell`,
the value read last, `matchQty`, and the value of `next.load()` of line 67 or 71. -/
structure Local where
  pc : Pc
  buy : Option Nat
  sell : Option Nat
  tmp : Int
  matchQty : Int
  succ : Option Nat
  deriving DecidableEq, Repr

/-- A thread that enters the loop of a book at line 57. -/
def Local.start : Local := ⟨.loadBuy, none, none, 0, 0, none⟩

/-- Contents of node `p`. -/
def Shared.cell (sh : Shared) (p : Nat) : Cell := sh.cells.getD p ⟨0, 0, none⟩

/-- An access to node `p`: it is recorded when the node has been freed. -/
def Shared.touch (sh : Shared) (p : Nat) : Shared :=
  if p ∈ sh.freed then { sh with usedAfterFree := sh.usedAfterFree ++ [p] } else sh

/-- The store `p->quantity = q`. -/
def Shared.setQuantity (sh : Shared) (p : Nat) (q : Int) : Shared :=
  { sh with cells := sh.cells.set p { sh.cell p with quantity := q } }

/-- Test of line 59 after both heads were loaded: enter the body or leave the loop. -/
def enterOrLeave (buy sell : Option Nat) : Pc :=
  if buy.isSome && sell.isSome then .readBuyPrice else .done

/-- One step of a thread: the access at its place in lines 57-77, with the local
computation that follows up to the next access. A `compare_exchange_strong` that fails
stores the head it found in its first argument, the local `buy` or `sell`, so that the
`delete` that follows is applied to that head, and does nothing when it is null. A
place reached with a null pointer it would dereference cannot arise after the test of
line 59; the thread then stops. -/
def Local.step (l : Local) (sh : Shared) : Local × Shared :=
  match l.pc, l.buy, l.sell with
  | .loadBuy, _, _ => ({ l with pc := .loadSell, buy := sh.buyHead }, sh)
  | .loadSell, _, _ =>
    ({ l with pc := enterOrLeave l.buy sh.sellHead, sell := sh.sellHead }, sh)
  | .readBuyPrice, some b, _ =>
    ({ l with pc := .readSellPrice, tmp := (sh.cell b).price }, sh.touch b)
  | .readSellPrice, _, some s =>
    ({ l with pc := if l.tmp ≥ (sh.cell s).price then .readBuyQty else .done }, sh.touch s)
  | .readBuyQty, some b, _ =>
    ({ l with pc := .readSellQty, tmp := (sh.cell b).quantity }, sh.touch b)
  | .readSellQty, _, some s =>
    ({ l with pc := .readBuyForSub, matchQty := min l.tmp (sh.cell s).quantity }, sh.touch s)
  | .readBuyForSub, some b, _ =>
    ({ l with pc := .writeBuy, tmp := (sh.cell b).quantity }, sh.touch b)
  | .writeBuy, some b, _ =>
    ({ l with pc := .readSellForSub },
      (sh.touch b).setQuantity b (wrapInt32 (l.tmp - l.matchQty)))
  | .readSellForSub, _, some s =>
    ({ l with pc := .writeSell, tmp := (sh.cell s).quantity }, sh.touch s)
  | .writeSell, _, some s =>
    ({ l with pc := .testBuy },
      (sh.touch s).setQuantity s (wrapInt32 (l.tmp - l.matchQty)))
  | .testBuy, some b, _ =>
    ({ l with pc := if (sh.cell b).quantity = 0 then .readBuyNext else .testSell }, sh.touch b)
  | .readBuyNext, some b, _ =>
    ({ l with pc := .casBuy, succ := (sh.cell b).next }, sh.touch b)
  | .casBuy, some b, _ =>
    if sh.buyHead = some b then
      ({ l with pc := .deleteBuy },
        { sh with buyHead := l.succ, unlinked := sh.unlinked ++ [b] })
    else
      ({ l with pc := .deleteBuy, buy := sh.buyHead }, sh)
  | .deleteBuy, some b, _ =>
    ({ l with pc := .testSell }, { sh with freed := sh.freed ++ [b] })
  | .deleteBuy, none, _ => ({ l with pc := .testSell }, sh)
  | .testSell, _, some s =>
    ({ l with pc := if (sh.cell s).quantity = 0 then .readSellNext else .reloadBuy },
      sh.touch s)
  | .readSellNext, _, some s =>
    ({ l with pc := .casSell, succ := (sh.cell s).next }, sh.touch s)
  | .casSell, _, some s =>
    if sh.sellHead = some s then
      ({ l with pc := .deleteSell },
        { sh with sellHead := l.succ, unlinked := sh.unlinked ++ [s] })
    else
      ({ l with pc := .deleteSell, sell := sh.sellHead }, sh)
  | .deleteSell, _, some s =>
    ({ l with pc := .reloadBuy }, { sh with freed := sh.freed ++ [s] })
  | .deleteSell, _, none => ({ l with pc := .reloadBuy }, sh)
  | .reloadBuy, _, _ => ({ l with pc := .reloadSell, buy := sh.buyHead }, sh)
  | .reloadSell, _, _ =>
    ({ l with pc := enterOrLeave l.buy sh.sellHead, sell := sh.sellHead }, sh)
  | _, _, _ => ({ l with pc := .done }, sh)

/-- The thread has `buy` in use: loaded and not yet past its last use at line 68. -/
def Pc.buyLive : Pc → Bool
  | .loadBuy | .testSell | .readSellNext | .casSell | .deleteSell | .reloadBuy | .done => false
  | _ => true

/-- The thread has `sell` in use: loaded and not yet past its last use at line 72. -/
def Pc.sellLive : Pc → Bool
  | .loadBuy | .loadSell | .reloadBuy | .reloadSell | .done => false
  | _ => true

/-- The thread holds a pointer to node `p` that it has yet to use. -/
def Local.holds (l : Local) (p : Nat) : Bool :=
  (l.pc.buyLive && l.buy == some p) || (l.pc.sellLive && l.sell == some p)

/-- The node that the next step of the thread passes to `delete`, if any. -/
def Local.deletes (l : Local) : Option Nat :=
  match l.pc with
  | .deleteBuy => l.buy
  | .deleteSell => l.sell
  | _ => none

/-- The book's memory, the threads at work on it, and the nodes that were freed while
a thread other than the freeing one held a pointer to them. -/
structure Machine where
  shared : Shared
  threads : List Local
  heldAtFree : List Nat
  deriving DecidableEq, Repr

/-- Nodes to record in `heldAtFree` when thread `t` takes its next step. -/
def Machine.heldNow (m : Machine) (t : Nat) (l : Local) : List Nat :=
  match l.deletes with
  | some p => if (m.threads.eraseIdx t).any (fun other => other.holds p) then [p] else []
  | none => []

/-- Thread `t` takes its next step; a `t` that names no thread changes nothing. -/
def Machine.step (m : Machine) (t : Nat) : Machine :=
  match m.threads[t]? with
  | none => m
  | some l =>
    { shared := (l.step m.shared).2
      threads := m.threads.set t (l.step m.shared).1
      heldAtFree := m.heldAtFree ++ m.heldNow t l }

/-- Runs a schedule: the threads named, one step each, in order. -/
def Machine.run (m : Machine) (schedule : List Nat) : Machine :=
  schedule.foldl Machine.step m

/-- The thread is not inside the loop: it has not started or it has left. -/
def Local.idle (l : Local) : Bool := l == Local.start || l.pc == Pc.done

/-- The schedule lets a thread step only while every other thread is outside the loop:
the calls run one after another. -/
def Machine.sequential : Machine → List Nat → Bool
  | _, [] => true
  | m, t :: rest => (m.threads.eraseIdx t).all Local.idle && (m.step t).sequential rest

/-- The list `l` is the chain of nodes reached from `head` through `next`. -/
def Chain (cells : List Cell) : List Nat → Option Nat → Prop
  | [], head => head = none
  | p :: rest, head => head = some p ∧ ∃ c, cells[p]? = some c ∧ Chain cells rest c.next

/-- A book before any thread enters the loop: both heads lead through chains of
distinct nodes, no node is on both, nothing is recorded, and no thread has started. -/
def Machine.Fresh (m : Machine) : Prop :=
  (∃ buys sells, Chain m.shared.cells buys m.shared.buyHead ∧
    Chain m.shared.cells sells m.shared.sellHead ∧ (buys ++ sells).Nodup) ∧
  m.shared.unlinked = [] ∧ m.shared.freed = [] ∧ m.shared.usedAfterFree = [] ∧
  m.heldAtFree = [] ∧ ∀ l ∈ m.threads, l = Local.start

/-- The memory is in order, with the nodes `pending` unlinked and not yet freed: the
heads lead through chains, no node is on a chain or in the unlink record twice, the
freed nodes are the unlinked ones up to `pending`, and no freed node was accessed. -/
def Core (sh : Shared) (pending : List Nat) : Prop :=
  ∃ buys sells, Chain sh.cells buys sh.buyHead ∧ Chain sh.cells sells sh.sellHead ∧
    (buys ++ sells ++ sh.unlinked).Nodup ∧ sh.unlinked = sh.freed ++ pending ∧
    sh.usedAfterFree = []

/-- What holds of a thread that runs the loop alone, place by place. -/
def ActiveInv (l : Local) (sh : Shared) : Prop :=
  match l.pc with
  | .loadBuy | .reloadBuy | .done => Core sh []
  | .loadSell | .reloadSell => Core sh [] ∧ l.buy = sh.buyHead
  | .casBuy =>
    Core sh [] ∧ ∃ b s, l.buy = some b ∧ l.sell = some s ∧ sh.buyHead = some b ∧
      sh.sellHead = some s ∧ l.succ = (sh.cell b).next
  | .deleteBuy =>
    ∃ b s, l.buy = some b ∧ l.sell = some s ∧ sh.sellHead = some s ∧ Core sh [b]
  | .testSell | .readSellNext =>
    Core sh [] ∧ ∃ s, l.sell = some s ∧ sh.sellHead = some s
  | .casSell =>
    Core sh [] ∧ ∃ s, l.sell = some s ∧ sh.sellHead = some s ∧ l.succ = (sh.cell s).next
  | .deleteSell => ∃ s, l.sell = some s ∧ Core sh [s]
  | _ =>
    Core sh [] ∧ ∃ b s, l.buy = some b ∧ l.sell = some s ∧ sh.buyHead = some b ∧
      sh.sellHead = some s

/-- What holds of the machine while the calls run one after another: nothing was
freed under a holder, at most thread `t` is inside the loop, and the memory is as that
thread's place requires. -/
def Machine.Orderly (m : Machine) : Prop :=
  m.heldAtFree = [] ∧
    ((m.threads = [] ∧ Core m.shared []) ∨
      ∃ t l, m.threads[t]? = some l ∧ ActiveInv l m.shared ∧
        ∀ (u : Nat) (k : Local), u ≠ t → m.threads[u]? = some k → k.idle = true)

/-- Two threads at line 57 of a book that holds a buy of 1 at 100 (node 0) and a sell
of 1 at 99 (node 1). -/
def twoThreads : Machine :=
  { shared := ⟨[⟨1, 100, none⟩, ⟨1, 99, none⟩], some 0, some 1, [], [], []⟩
    threads := [Local.start, Local.start]
    heldAtFree := [] }

/-- Thread 0 loads both heads, thread 1 then runs the whole loop, and thread 0 takes
its next step, the read of `buy->price` at line 60. -/
def overlappingSchedule : List Nat :=
  [0, 0] ++ List.replicate 20 1 ++ [0]

/-- Two threads at line 57 of a book that holds two buys of 1 at 100 (nodes 0 and 2)
and two sells of 1 at 99 (nodes 1 and 3). -/
def fourNodes : Machine :=
  { shared := ⟨[⟨1, 100, some 2⟩, ⟨1, 99, some 3⟩, ⟨1, 100, none⟩, ⟨1, 99, none⟩],
      some 0, some 1, [], [], []⟩
    threads := [Local.start, Local.start]
    heldAtFree := [] }

/-- Thread 0 runs up to its exchange on the buy head (line 67); thread 1 runs through
its own exchange and `delete` of that node; thread 0 then takes the failed exchange and
the `delete` of line 68; thread 1 runs on to the end of the loop. -/
def doubleFreeSchedule : List Nat :=
  List.replicate 12 0 ++ List.replicate 14 1 ++ [0, 0] ++ List.replicate 24 1

/-- Thread 0 runs the whole loop, then thread 1 does. -/
def sequentialSchedule : List Nat :=
  List.replicate 20 0 ++ List.replicate 2 1

/-! ## Scenario data -/

/-- A routing function used in the concrete scenarios: the length of the ticker. -/
def lengthHash : String → Nat := String.length

/-- Table after `addOrder(Buy,"X",10,100)` and `addOrder(Buy,"X",5,101)` from the empty table. -/
def twoBids (hash : String → Nat) : Books :=
  addOrder hash (addOrder hash emptyBooks true "X" 10 100) true "X" 5 101

/-- The table `twoBids` after `addOrder(Sell,"X",8,99)`. -/
def twoBidsOneAsk (hash : String → Nat) : Books :=
  addOrder hash (twoBids hash) false "X" 8 99

/-- Calls of the smallest execution with a fill: one bid and one ask of quantity 1 that cross. -/
def crossingCalls : List Call :=
  [.add true "X" 1 100, .add false "X" 1 99, .matchAll]

/-! ## Arithmetic of one fill -/

theorem sub_min_zero (a b : Int) : a - min a b = 0 ∨ b - min a b = 0 := by
  rcases le_total a b with h | h
  · left; rw [min_eq_left h]; omega
  · right; rw [min_eq_right h]; omega

/-- With non-negative `int` quantities the subtraction of lines 63-64 cannot overflow. -/
theorem sub_min_in_range (a b : Int) (ha : 0 ≤ a) (hb : 0 ≤ b) (hmax : a < 2 ^ 31) :
    0 ≤ a - min a b ∧ a - min a b < 2 ^ 31 := by
  omega

theorem afterFill_length_le (head : Order) (rest : List Order) (q : Int) :
    (afterFill head rest q).length ≤ rest.length + 1 := by
  unfold afterFill; split <;> simp

theorem afterFill_zero (head : Order) (rest : List Order) :
    afterFill head rest 0 = rest := by
  simp [afterFill]


/-! ## Lemmas on insertOrder -/

theorem insertOrder_split (o : Order) (l : List Order) :
    ∃ l1 l2, l = l1 ++ l2 ∧ insertOrder o l = l1 ++ o :: l2 ∧
      (∀ c ∈ l1, walksPast o.isBuy o.price c = true) ∧
      (∀ c, l2.head? = some c → walksPast o.isBuy o.price c = false) := by
  induction l with
  | nil => exact ⟨[], [], rfl, rfl, by simp, by simp⟩
  | cons c rest ih =>
    by_cases hw : walksPast o.isBuy o.price c = true
    · obtain ⟨l1, l2, h1, h2, h3, h4⟩ := ih
      refine ⟨c :: l1, l2, by simp [h1], by simp [insertOrder, hw, h2], ?_, h4⟩
      intro d hd
      rcases List.mem_cons.1 hd with rfl | hd
      · exact hw
      · exact h3 d hd
    · refine ⟨[], c :: rest, rfl, by simp [insertOrder, hw], by simp, ?_⟩
      intro d hd
      simp only [List.head?_cons, Option.some.injEq] at hd
      subst hd
      simpa using hw

theorem mem_insertOrder {o x : Order} {l : List Order} :
    x ∈ insertOrder o l ↔ x = o ∨ x ∈ l := by
  obtain ⟨l1, l2, h1, h2, -, -⟩ := insertOrder_split o l
  rw [h2, h1]
  simp only [List.mem_append, List.mem_cons]
  tauto

theorem totalQty_insertOrder (o : Order) (l : List Order) :
    totalQty (insertOrder o l) = o.quantity + totalQty l := by
  obtain ⟨l1, l2, h1, h2, -, -⟩ := insertOrder_split o l
  rw [h2, h1]
  simp only [totalQty, List.map_append, List.map_cons, List.sum_append, List.sum_cons]
  omega

theorem insertOrder_sortedBuy {o : Order} {l : List Order} (hb : o.isBuy = true)
    (hs : SortedBuy l) : SortedBuy (insertOrder o l) := by
  induction l with
  | nil => simp [insertOrder, SortedBuy]
  | cons c rest ih =>
    obtain ⟨hc, hrest⟩ := List.pairwise_cons.1 hs
    by_cases hw : walksPast o.isBuy o.price c = true
    · simp only [insertOrder, hw, if_true]
      refine List.pairwise_cons.2 ⟨?_, ih hrest⟩
      intro x hx
      rcases mem_insertOrder.1 hx with rfl | hx
      · simp [walksPast, hb] at hw
        omega
      · exact hc x hx
    · simp only [insertOrder, hw]
      simp [walksPast, hb] at hw
      refine List.pairwise_cons.2 ⟨?_, hs⟩
      intro x hx
      rcases List.mem_cons.1 hx with rfl | hx
      · exact hw
      · have := hc x hx
        omega

theorem insertOrder_sortedSell {o : Order} {l : List Order} (hb : o.isBuy = false)
    (hs : SortedSell l) : SortedSell (insertOrder o l) := by
  induction l with
  | nil => simp [insertOrder, SortedSell]
  | cons c rest ih =>
    obtain ⟨hc, hrest⟩ := List.pairwise_cons.1 hs
    by_cases hw : walksPast o.isBuy o.price c = true
    · simp only [insertOrder, hw, if_true]
      refine List.pairwise_cons.2 ⟨?_, ih hrest⟩
      intro x hx
      rcases mem_insertOrder.1 hx with rfl | hx
      · simp [walksPast, hb] at hw
        omega
      · exact hc x hx
    · simp only [insertOrder, hw]
      simp [walksPast, hb] at hw
      refine List.pairwise_cons.2 ⟨?_, hs⟩
      intro x hx
      rcases List.mem_cons.1 hx with rfl | hx
      · exact hw
      · have := hc x hx
        omega

/-! ## Lemmas on addOrder -/

theorem addOrder_same (hash : String → Nat) (books : Books) (isBuy : Bool) (ticker : String)
    (qty price : Int) :
    addOrder hash books isBuy ticker qty price (bookIndex hash ticker)
      = addToBook (books (bookIndex hash ticker)) isBuy qty price := by
  simp [addOrder]

theorem addOrder_other (hash : String → Nat) (books : Books) (isBuy : Bool) (ticker : String)
    (qty price : Int) {j : Fin NUM_TICKERS} (hj : j ≠ bookIndex hash ticker) :
    addOrder hash books isBuy ticker qty price j = books j := by
  simp [addOrder, Function.update_noteq hj]

theorem sideList_addToBook_same (book : OrderBook) (isBuy : Bool) (qty price : Int) :
    sideList isBuy (addToBook book isBuy qty price)
      = insertOrder ⟨isBuy, qty, price⟩ (sideList isBuy book) := by
  cases isBuy <;> simp [sideList, addToBook]

theorem sideList_addToBook_opposite (book : OrderBook) (isBuy : Bool) (qty price : Int) :
    sideList (!isBuy) (addToBook book isBuy qty price) = sideList (!isBuy) book := by
  cases isBuy <;> simp [sideList, addToBook]

/-! ## Lemmas on the matching loop -/

theorem matchLoop_cross (buy sell : Order) (buys sells : List Order)
    (h : buy.price ≥ sell.price) :
    matchLoop (buy :: buys) (sell :: sells) =
      ((matchLoop (afterFill buy buys (buy.quantity - min buy.quantity sell.quantity))
          (afterFill sell sells (sell.quantity - min buy.quantity sell.quantity))).1,
        ⟨buy, sell, min buy.quantity sell.quantity⟩ ::
          (matchLoop (afterFill buy buys (buy.quantity - min buy.quantity sell.quantity))
            (afterFill sell sells (sell.quantity - min buy.quantity sell.quantity))).2) := by
  rw [matchLoop]
  simp [h]

theorem matchLoop_apart (buy sell : Order) (buys sells : List Order)
    (h : ¬ buy.price ≥ sell.price) :
    matchLoop (buy :: buys) (sell :: sells) = ((buy :: buys, sell :: sells), []) := by
  rw [matchLoop]
  simp [h]

theorem matchLoop_nil_left (sells : List Order) : matchLoop [] sells = (([], sells), []) := by
  rw [matchLoop]

theorem matchLoop_nil_right (buys : List Order) : matchLoop buys [] = ((buys, []), []) := by
  cases buys with
  | nil => rw [matchLoop]
  | cons b bs =>
    rw [matchLoop]
    simp

theorem totalQty_afterFill (head : Order) (rest : List Order) (q : Int) :
    totalQty (afterFill head rest q) = q + totalQty rest := by
  unfold afterFill
  split
  · omega
  · simp [totalQty]

theorem afterFill_prices_suffix (head : Order) (rest : List Order) (q : Int) :
    (afterFill head rest q).map Order.price <:+ (head :: rest).map Order.price := by
  unfold afterFill
  split
  · simp
  · simp

/-- Each side loses exactly the filled quantity. -/
theorem matchLoop_totalQty (buys sells : List Order) :
    totalQty buys = totalQty (matchLoop buys sells).1.1 + filledQty (matchLoop buys sells).2 ∧
    totalQty sells = totalQty (matchLoop buys sells).1.2 + filledQty (matchLoop buys sells).2 := by
  induction buys, sells using matchLoop.induct with
  | case1 buy buys sell sells h matchQty ih =>
    rw [matchLoop_cross _ _ _ _ h]
    simp only [matchQty] at ih
    obtain ⟨ih1, ih2⟩ := ih
    have e1 := totalQty_afterFill buy buys (buy.quantity - min buy.quantity sell.quantity)
    have e2 := totalQty_afterFill sell sells (sell.quantity - min buy.quantity sell.quantity)
    have c1 : totalQty (buy :: buys) = buy.quantity + totalQty buys := by simp [totalQty]
    have c2 : totalQty (sell :: sells) = sell.quantity + totalQty sells := by simp [totalQty]
    simp only [filledQty, List.map_cons, List.sum_cons] at ih1 ih2 ⊢
    constructor <;> omega
  | case2 buy buys sell sells h =>
    rw [matchLoop_apart _ _ _ _ h]
    simp [filledQty]
  | case3 sells =>
    rw [matchLoop_nil_left]
    simp [filledQty]
  | case4 buys _ =>
    rw [matchLoop_nil_right]
    simp [filledQty]

/-- The price columns of the lists at loop exit are suffixes of the ones at entry. -/
theorem matchLoop_prices_suffix (buys sells : List Order) :
    (matchLoop buys sells).1.1.map Order.price <:+ buys.map Order.price ∧
    (matchLoop buys sells).1.2.map Order.price <:+ sells.map Order.price := by
  induction buys, sells using matchLoop.induct with
  | case1 buy buys sell sells h matchQty ih =>
    rw [matchLoop_cross _ _ _ _ h]
    exact ⟨ih.1.trans (afterFill_prices_suffix _ _ _), ih.2.trans (afterFill_prices_suffix _ _ _)⟩
  | case2 buy buys sell sells h =>
    rw [matchLoop_apart _ _ _ _ h]
    exact ⟨List.suffix_refl _, List.suffix_refl _⟩
  | case3 sells =>
    rw [matchLoop_nil_left]
    exact ⟨List.suffix_refl _, List.suffix_refl _⟩
  | case4 buys _ =>
    rw [matchLoop_nil_right]
    exact ⟨List.suffix_refl _, List.suffix_refl _⟩

/-- The loop exits only on a book whose heads do not cross. -/
theorem matchLoop_noCrossing (buys sells : List Order) :
    NoCrossingHeads ⟨(matchLoop buys sells).1.1, (matchLoop buys sells).1.2⟩ := by
  induction buys, sells using matchLoop.induct with
  | case1 buy buys sell sells h matchQty ih =>
    rw [matchLoop_cross _ _ _ _ h]
    exact ih
  | case2 buy buys sell sells h =>
    rw [matchLoop_apart _ _ _ _ h]
    exact Or.inr (Or.inr ⟨buy, sell, rfl, rfl, by simpa using h⟩)
  | case3 sells =>
    rw [matchLoop_nil_left]
    exact Or.inl rfl
  | case4 buys _ =>
    rw [matchLoop_nil_right]
    exact Or.inr (Or.inl rfl)

/-- On a book whose heads do not cross the loop body is never entered. -/
theorem matchLoop_of_noCrossing (buys sells : List Order)
    (h : NoCrossingHeads ⟨buys, sells⟩) : matchLoop buys sells = ((buys, sells), []) := by
  rcases h with h | h | ⟨buy, sell, hb, hs, hlt⟩
  · simp only at h
    subst h
    exact matchLoop_nil_left sells
  · simp only at h
    subst h
    exact matchLoop_nil_right buys
  · cases buys with
    | nil => exact matchLoop_nil_left sells
    | cons b bs =>
      cases sells with
      | nil => exact matchLoop_nil_right _
      | cons s ss =>
        simp only [List.head?_cons, Option.some.injEq] at hb hs
        subst hb hs
        exact matchLoop_apart _ _ _ _ (by omega)

theorem sortedBuy_of_prices_suffix {l l' : List Order}
    (h : l'.map Order.price <:+ l.map Order.price) (hs : SortedBuy l) : SortedBuy l' := by
  have h1 : (l.map Order.price).Pairwise (fun a b => a ≥ b) := List.pairwise_map.2 hs
  exact List.pairwise_map.1 (h1.sublist h.sublist)

theorem sortedSell_of_prices_suffix {l l' : List Order}
    (h : l'.map Order.price <:+ l.map Order.price) (hs : SortedSell l) : SortedSell l' := by
  have h1 : (l.map Order.price).Pairwise (fun a b => a ≤ b) := List.pairwise_map.2 hs
  exact List.pairwise_map.1 (h1.sublist h.sublist)

/-! ## Lemmas on executions -/

/-- A property of the start state that every call preserves holds after every execution. -/
theorem execute_induction (hash : String → Nat) (P : Run → Prop) (h0 : P Run.start)
    (hstep : ∀ r c, P r → P (Run.step hash r c)) (calls : List Call) :
    P (execute hash calls) := by
  have key : ∀ (cs : List Call) (r : Run), P r → P (cs.foldl (Run.step hash) r) := by
    intro cs
    induction cs with
    | nil => intro r hr; exact hr
    | cons c cs ih => intro r hr; exact ih _ (hstep r c hr)
  exact key calls Run.start h0

theorem addToBook_sorted (book : OrderBook) (isBuy : Bool) (qty price : Int)
    (h : SortedBuy book.buyHead ∧ SortedSell book.sellHead) :
    SortedBuy (addToBook book isBuy qty price).buyHead ∧
      SortedSell (addToBook book isBuy qty price).sellHead := by
  cases isBuy with
  | true => exact ⟨insertOrder_sortedBuy rfl h.1, h.2⟩
  | false => exact ⟨h.1, insertOrder_sortedSell rfl h.2⟩

theorem matchBook_sorted (book : OrderBook)
    (h : SortedBuy book.buyHead ∧ SortedSell book.sellHead) :
    SortedBuy (matchBook book).buyHead ∧ SortedSell (matchBook book).sellHead :=
  ⟨sortedBuy_of_prices_suffix (matchLoop_prices_suffix _ _).1 h.1,
    sortedSell_of_prices_suffix (matchLoop_prices_suffix _ _).2 h.2⟩

theorem filledQty_append (a b : List Fill) : filledQty (a ++ b) = filledQty a + filledQty b := by
  simp [filledQty]

theorem submittedQty_snoc (side : Bool) (l : List Order) (o : Order) :
    submittedQty side (l ++ [o]) = submittedQty side l + (if o.isBuy = side then o.quantity else 0) := by
  by_cases h : o.isBuy = side <;> simp [submittedQty, totalQty, List.filter_append, h]

theorem totalQty_eq_sides (l : List Order) :
    totalQty l = submittedQty true l + submittedQty false l := by
  induction l with
  | nil => simp [submittedQty, totalQty]
  | cons o l ih =>
    have c : totalQty (o :: l) = o.quantity + totalQty l := by simp [totalQty]
    rw [c, ih]
    cases hb : o.isBuy <;> simp [submittedQty, totalQty, List.filter_cons, hb] <;> omega

theorem addToBook_totalQty (book : OrderBook) (isBuy : Bool) (qty price : Int) :
    totalQty (addToBook book isBuy qty price).buyHead
        = totalQty book.buyHead + (if isBuy = true then qty else 0) ∧
    totalQty (addToBook book isBuy qty price).sellHead
        = totalQty book.sellHead + (if isBuy = false then qty else 0) := by
  cases isBuy <;> simp [addToBook, totalQty_insertOrder] <;> omega

/-- Per side, resident quantity plus filled quantity equals submitted quantity. -/
theorem execute_side_balance (hash : String → Nat) (calls : List Call) :
    ∀ i, totalQty ((execute hash calls).books i).buyHead + filledQty ((execute hash calls).fills i)
          = submittedQty true ((execute hash calls).submitted i) ∧
        totalQty ((execute hash calls).books i).sellHead + filledQty ((execute hash calls).fills i)
          = submittedQty false ((execute hash calls).submitted i) := by
  refine execute_induction hash
    (fun r => ∀ i, totalQty (r.books i).buyHead + filledQty (r.fills i)
          = submittedQty true (r.submitted i) ∧
        totalQty (r.books i).sellHead + filledQty (r.fills i)
          = submittedQty false (r.submitted i)) ?_ ?_ calls
  · intro i
    simp [Run.start, emptyBooks, totalQty, filledQty, submittedQty]
  · intro r c hr i
    cases c with
    | add isBuy ticker qty price =>
      by_cases hi : i = bookIndex hash ticker
      · subst hi
        obtain ⟨h1, h2⟩ := hr (bookIndex hash ticker)
        obtain ⟨a1, a2⟩ := addToBook_totalQty (r.books (bookIndex hash ticker)) isBuy qty price
        simp only [Run.step, addOrder_same, Function.update_same, submittedQty_snoc]
        constructor <;> omega
      · simp only [Run.step, addOrder_other _ _ _ _ _ _ hi, Function.update_noteq hi]
        exact hr i
    | matchAll =>
      obtain ⟨h1, h2⟩ := hr i
      obtain ⟨m1, m2⟩ := matchLoop_totalQty (r.books i).buyHead (r.books i).sellHead
      simp only [Run.step, matchOrder, matchBook, bookFills, filledQty_append]
      constructor <;> omega

/-! ## Claims -/

/-- C1 (sort invariant): after every finite sequence of `addOrder` and `matchOrder`
calls executed one after another from the empty table, in every book the buy list
is ordered by price descending from the head and the sell list by price ascending. -/
theorem sort_invariant (hash : String → Nat) (calls : List Call) (i : Fin NUM_TICKERS) :
    SortedBuy ((execute hash calls).books i).buyHead ∧
      SortedSell ((execute hash calls).books i).sellHead := by
  refine execute_induction hash
    (fun r => ∀ i, SortedBuy (r.books i).buyHead ∧ SortedSell (r.books i).sellHead)
    ?_ ?_ calls i
  · intro j
    simp [Run.start, emptyBooks]
  · intro r c hr j
    cases c with
    | add isBuy ticker qty price =>
      by_cases hj : j = bookIndex hash ticker
      · subst hj
        simp only [Run.step, addOrder_same]
        exact addToBook_sorted _ _ _ _ (hr _)
      · simp only [Run.step, addOrder_other _ _ _ _ _ _ hj]
        exact hr j
    | matchAll => exact matchBook_sorted _ (hr j)

theorem twoBids_book (hash : String → Nat) :
    twoBids hash (bookIndex hash "X") = ⟨[⟨true, 5, 101⟩, ⟨true, 10, 100⟩], []⟩ := by
  simp [twoBids, addOrder_same, addToBook, insertOrder, walksPast, emptyBooks]

theorem twoBidsOneAsk_book (hash : String → Nat) :
    twoBidsOneAsk hash (bookIndex hash "X")
      = ⟨[⟨true, 5, 101⟩, ⟨true, 10, 100⟩], [⟨false, 8, 99⟩]⟩ := by
  simp [twoBidsOneAsk, addOrder_same, twoBids_book, addToBook, insertOrder]

theorem twoBidsOneAsk_elsewhere (hash : String → Nat) (j : Fin NUM_TICKERS)
    (hj : j ≠ bookIndex hash "X") : twoBidsOneAsk hash j = ⟨[], []⟩ := by
  simp [twoBidsOneAsk, twoBids, addOrder_other _ _ _ _ _ _ hj, emptyBooks]

theorem scenario_loop :
    matchLoop [⟨true, 5, 101⟩, ⟨true, 10, 100⟩] [⟨false, 8, 99⟩]
      = (([⟨true, 7, 100⟩], []),
          [⟨⟨true, 5, 101⟩, ⟨false, 8, 99⟩, 5⟩, ⟨⟨true, 10, 100⟩, ⟨false, 3, 99⟩, 3⟩]) := by
  simp [matchLoop, afterFill]

/-- C2 (concrete scenario): whatever slot "X" is routed to, the two buys give the
bid list [101 x 5, 100 x 10]; after the sell of 8 at 99 one `matchOrder` call
performs exactly two fills, 5 against the 101 bid and then 3 against the 100 bid,
both against the 99 ask, and leaves the sell list empty and the bid list holding
the single order 100 x 7. No other book performs a fill. -/
theorem concrete_scenario (hash : String → Nat) :
    (twoBids hash (bookIndex hash "X")).buyHead = [⟨true, 5, 101⟩, ⟨true, 10, 100⟩] ∧
    bookFills (twoBidsOneAsk hash (bookIndex hash "X"))
      = [⟨⟨true, 5, 101⟩, ⟨false, 8, 99⟩, 5⟩, ⟨⟨true, 10, 100⟩, ⟨false, 3, 99⟩, 3⟩] ∧
    (∀ j, j ≠ bookIndex hash "X" → bookFills (twoBidsOneAsk hash j) = []) ∧
    (matchOrder (twoBidsOneAsk hash) (bookIndex hash "X")).sellHead = [] ∧
    (matchOrder (twoBidsOneAsk hash) (bookIndex hash "X")).buyHead = [⟨true, 7, 100⟩] := by
  refine ⟨by rw [twoBids_book], ?_, ?_, ?_, ?_⟩
  · rw [bookFills, twoBidsOneAsk_book, scenario_loop]
  · intro j hj
    rw [bookFills, twoBidsOneAsk_elsewhere hash j hj, matchLoop_nil_left]
  · rw [matchOrder, matchBook, twoBidsOneAsk_book, scenario_loop]
  · rw [matchOrder, matchBook, twoBidsOneAsk_book, scenario_loop]

theorem crossingCalls_run (hash : String → Nat) :
    (execute hash crossingCalls).books (bookIndex hash "X") = ⟨[], []⟩ ∧
    (execute hash crossingCalls).fills (bookIndex hash "X")
      = [⟨⟨true, 1, 100⟩, ⟨false, 1, 99⟩, 1⟩] ∧
    (execute hash crossingCalls).submitted (bookIndex hash "X")
      = [⟨true, 1, 100⟩, ⟨false, 1, 99⟩] := by
  have hloop : matchLoop [⟨true, 1, 100⟩] [⟨false, 1, 99⟩]
      = (([], []), [⟨⟨true, 1, 100⟩, ⟨false, 1, 99⟩, 1⟩]) := by
    simp [matchLoop, afterFill]
  simp [execute, crossingCalls, Run.step, Run.start, matchOrder, matchBook, bookFills,
    addOrder_same, addToBook, insertOrder, emptyBooks, hloop]

/-- C3, counterexample: after a bid and an ask of quantity 1 that cross and one
`matchOrder` call, nothing is resident, the single fill has `matchQty` 1, and 2 were
submitted: resident + matched = 1 differs from submitted = 2. -/
theorem single_count_conservation_fails :
    residentQty ((execute lengthHash crossingCalls).books (bookIndex lengthHash "X")) = 0 ∧
    filledQty ((execute lengthHash crossingCalls).fills (bookIndex lengthHash "X")) = 1 ∧
    totalQty ((execute lengthHash crossingCalls).submitted (bookIndex lengthHash "X")) = 2 ∧
    residentQty ((execute lengthHash crossingCalls).books (bookIndex lengthHash "X"))
      + filledQty ((execute lengthHash crossingCalls).fills (bookIndex lengthHash "X"))
      ≠ totalQty ((execute lengthHash crossingCalls).submitted (bookIndex lengthHash "X")) := by
  obtain ⟨h1, h2, h3⟩ := crossingCalls_run lengthHash
  rw [h1, h2, h3]
  simp [residentQty, filledQty, totalQty]

/-- C4 (two-sided conservation): after every sequential execution from the empty
state, in every book the total quantity admitted by `addOrder` equals the resident
quantity plus twice the sum of `matchQty` over all fills; and one `matchOrder` call
on any table lowers the resident buy quantity and the resident sell quantity of a
book by the same amount, the quantity it filled there. -/
theorem two_sided_conservation (hash : String → Nat) (calls : List Call) (i : Fin NUM_TICKERS) :
    totalQty ((execute hash calls).submitted i)
      = residentQty ((execute hash calls).books i)
        + 2 * filledQty ((execute hash calls).fills i) ∧
    ∀ books : Books,
      totalQty (books i).buyHead - totalQty (matchOrder books i).buyHead
        = filledQty (bookFills (books i)) ∧
      totalQty (books i).sellHead - totalQty (matchOrder books i).sellHead
        = filledQty (bookFills (books i)) := by
  constructor
  · obtain ⟨h1, h2⟩ := execute_side_balance hash calls i
    rw [totalQty_eq_sides]
    unfold residentQty
    omega
  · intro books
    obtain ⟨m1, m2⟩ := matchLoop_totalQty (books i).buyHead (books i).sellHead
    simp only [matchOrder, matchBook, bookFills]
    constructor <;> omega

/-- C5 (drain postcondition): after a `matchOrder` call on any table no book holds a
crossing pair at its heads: the buy list is empty, or the sell list is empty, or the
head buy price is strictly less than the head sell price. -/
theorem drain_postcondition (books : Books) (i : Fin NUM_TICKERS) :
    NoCrossingHeads (matchOrder books i) :=
  matchLoop_noCrossing (books i).buyHead (books i).sellHead

/-- C6 (idempotent drain): a second `matchOrder` call right after the first performs
no fill in any book and leaves every book as the first call left it. -/
theorem idempotent_drain (books : Books) :
    matchOrder (matchOrder books) = matchOrder books ∧
      ∀ i, bookFills (matchOrder books i) = [] := by
  have key : ∀ i, matchLoop (matchOrder books i).buyHead (matchOrder books i).sellHead
      = (((matchOrder books i).buyHead, (matchOrder books i).sellHead), []) :=
    fun i => matchLoop_of_noCrossing _ _ (matchLoop_noCrossing (books i).buyHead (books i).sellHead)
  constructor
  · funext i
    show matchBook (matchOrder books i) = matchOrder books i
    unfold matchBook
    rw [key i]
  · intro i
    unfold bookFills
    rw [key i]

/-- C7 (no insert is lost, nothing else is touched): after `addOrder(isBuy, ticker,
qty, price)` the chosen list of book `hash(ticker) mod 1024` consists of the orders it
held before, unchanged and in the same order, with exactly one new order carrying the
given side, quantity and price linked in between; the opposite list of that book and
both lists of every other book are unchanged. -/
theorem addOrder_frame (hash : String → Nat) (books : Books) (isBuy : Bool) (ticker : String)
    (qty price : Int) :
    (bookIndex hash ticker).val = hash ticker % 1024 ∧
    (∃ l1 l2, sideList isBuy (books (bookIndex hash ticker)) = l1 ++ l2 ∧
      sideList isBuy (addOrder hash books isBuy ticker qty price (bookIndex hash ticker))
        = l1 ++ ⟨isBuy, qty, price⟩ :: l2) ∧
    sideList (!isBuy) (addOrder hash books isBuy ticker qty price (bookIndex hash ticker))
      = sideList (!isBuy) (books (bookIndex hash ticker)) ∧
    ∀ j, j ≠ bookIndex hash ticker → addOrder hash books isBuy ticker qty price j = books j := by
  refine ⟨rfl, ?_, ?_, ?_⟩
  · obtain ⟨l1, l2, h1, h2, -, -⟩ :=
      insertOrder_split ⟨isBuy, qty, price⟩ (sideList isBuy (books (bookIndex hash ticker)))
    exact ⟨l1, l2, h1, by rw [addOrder_same, sideList_addToBook_same, h2]⟩
  · rw [addOrder_same, sideList_addToBook_opposite]
  · intro j hj
    exact addOrder_other _ _ _ _ _ _ hj

/-- C8, counterexample: `addOrder(Buy,"X",1,100)` then `addOrder(Buy,"X",2,100)` puts
the later order (quantity 2) at the head, in front of the earlier one, and a
following sell of 1 at 100 is filled against the later order. -/
theorem equal_price_later_order_at_head :
    (addOrder lengthHash (addOrder lengthHash emptyBooks true "X" 1 100) true "X" 2 100
        (bookIndex lengthHash "X")).buyHead = [⟨true, 2, 100⟩, ⟨true, 1, 100⟩] ∧
    bookFills (addOrder lengthHash
        (addOrder lengthHash (addOrder lengthHash emptyBooks true "X" 1 100) true "X" 2 100)
        false "X" 1 100 (bookIndex lengthHash "X"))
      = [⟨⟨true, 2, 100⟩, ⟨false, 1, 100⟩, 1⟩] := by
  have hloop : matchLoop [⟨true, 2, 100⟩, ⟨true, 1, 100⟩] [⟨false, 1, 100⟩]
      = (([⟨true, 1, 100⟩, ⟨true, 1, 100⟩], []), [⟨⟨true, 2, 100⟩, ⟨false, 1, 100⟩, 1⟩]) := by
    simp [matchLoop, afterFill]
  simp [bookFills, addOrder_same, addToBook, insertOrder, walksPast, emptyBooks, hloop]

/-- C8, amended (the later order goes first at equal price): in every state,
`addOrder` links the new order behind orders of strictly better price only (higher
for a buy, lower for a sell), hence in front of every order of the chosen list that
has the same price; the resident orders keep their relative order. -/
theorem equal_price_newest_first (hash : String → Nat) (books : Books) (isBuy : Bool)
    (ticker : String) (qty price : Int) :
    ∃ l1 l2, sideList isBuy (books (bookIndex hash ticker)) = l1 ++ l2 ∧
      sideList isBuy (addOrder hash books isBuy ticker qty price (bookIndex hash ticker))
        = l1 ++ ⟨isBuy, qty, price⟩ :: l2 ∧
      (∀ o ∈ l1, if isBuy = true then o.price > price else o.price < price) ∧
      (∀ o ∈ l1, o.price ≠ price) := by
  obtain ⟨l1, l2, h1, h2, h3, -⟩ :=
    insertOrder_split ⟨isBuy, qty, price⟩ (sideList isBuy (books (bookIndex hash ticker)))
  have better : ∀ o ∈ l1, if isBuy = true then o.price > price else o.price < price := by
    intro o ho
    have := h3 o ho
    cases isBuy <;> simpa [walksPast] using this
  refine ⟨l1, l2, h1, by rw [addOrder_same, sideList_addToBook_same, h2], better, ?_⟩
  intro o ho
  have := better o ho
  split at this <;> omega

/-- Every routing into 1024 slots sends two distinct tickers to the same book. -/
theorem collision_exists (hash : String → Nat) :
    ∃ a b : String, a ≠ b ∧ bookIndex hash a = bookIndex hash b := by
  obtain ⟨x, y, hxy, h⟩ := Fintype.exists_ne_map_eq_of_card_lt
    (fun n : Fin (NUM_TICKERS + 1) => bookIndex hash (String.mk (List.replicate n.val 'a')))
    (by rw [Fintype.card_fin, Fintype.card_fin]; exact Nat.lt_succ_self _)
  refine ⟨_, _, ?_, h⟩
  intro heq
  apply hxy
  have := congrArg String.length heq
  simp only [String.length, List.length_replicate] at this
  exact Fin.ext this

/-- C9, counterexample: the tickers "A" and "B" are distinct and routed to the same
book by `lengthHash`; after `addOrder(Buy,"A",5,100)` and `addOrder(Sell,"B",5,99)` on
the empty table `matchOrder` fills the buy of "A" against the sell of "B" and
neither order stays resident. -/
theorem colliding_tickers_are_matched :
    "A" ≠ "B" ∧ bookIndex lengthHash "A" = bookIndex lengthHash "B" ∧
    bookFills (addOrder lengthHash (addOrder lengthHash emptyBooks true "A" 5 100)
        false "B" 5 99 (bookIndex lengthHash "A"))
      = [⟨⟨true, 5, 100⟩, ⟨false, 5, 99⟩, 5⟩] ∧
    matchOrder (addOrder lengthHash (addOrder lengthHash emptyBooks true "A" 5 100)
        false "B" 5 99) (bookIndex lengthHash "A") = ⟨[], []⟩ := by
  have hidx : bookIndex lengthHash "B" = bookIndex lengthHash "A" := by decide
  have hloop : matchLoop [⟨true, 5, 100⟩] [⟨false, 5, 99⟩]
      = (([], []), [⟨⟨true, 5, 100⟩, ⟨false, 5, 99⟩, 5⟩]) := by
    simp [matchLoop, afterFill]
  have hbook : addOrder lengthHash (addOrder lengthHash emptyBooks true "A" 5 100)
      false "B" 5 99 (bookIndex lengthHash "A")
      = ⟨[⟨true, 5, 100⟩], [⟨false, 5, 99⟩]⟩ := by
    rw [← hidx, addOrder_same, hidx, addOrder_same]
    simp [addToBook, insertOrder, emptyBooks]
  refine ⟨by decide, hidx.symm, ?_, ?_⟩
  · rw [bookFills, hbook, hloop]
  · rw [matchOrder, matchBook, hbook, hloop]

/-- C9, amended (matching is per book, not per instrument): whenever two tickers
are routed to the same book, after `addOrder(Buy,a,q,100)` and `addOrder(Sell,b,q,99)`
on the empty table `matchOrder` performs one fill of quantity `q` between the two
orders and removes both from the book. -/
theorem same_book_orders_are_matched (hash : String → Nat) (a b : String) (q : Int)
    (h : bookIndex hash a = bookIndex hash b) :
    bookFills (addOrder hash (addOrder hash emptyBooks true a q 100) false b q 99
        (bookIndex hash a)) = [⟨⟨true, q, 100⟩, ⟨false, q, 99⟩, q⟩] ∧
    matchOrder (addOrder hash (addOrder hash emptyBooks true a q 100) false b q 99)
        (bookIndex hash a) = ⟨[], []⟩ := by
  have hloop : matchLoop [⟨true, q, 100⟩] [⟨false, q, 99⟩]
      = (([], []), [⟨⟨true, q, 100⟩, ⟨false, q, 99⟩, q⟩]) := by
    have hge : (⟨true, q, 100⟩ : Order).price ≥ (⟨false, q, 99⟩ : Order).price := by
      show (100 : Int) ≥ 99
      decide
    rw [matchLoop_cross _ _ _ _ hge]
    simp [afterFill, matchLoop_nil_left]
  have hbook : addOrder hash (addOrder hash emptyBooks true a q 100) false b q 99
      (bookIndex hash a) = ⟨[⟨true, q, 100⟩], [⟨false, q, 99⟩]⟩ := by
    rw [h, addOrder_same, ← h, addOrder_same]
    simp [addToBook, insertOrder, emptyBooks]
  constructor
  · rw [bookFills, hbook, hloop]
  · rw [matchOrder, matchBook, hbook, hloop]

/-- Witness of `same_book_orders_are_matched` at the tickers "A" and "B". -/
theorem same_book_orders_are_matched_witness :
    bookIndex lengthHash "A" = bookIndex lengthHash "B" ∧
    bookFills (addOrder lengthHash (addOrder lengthHash emptyBooks true "A" 7 100)
        false "B" 7 99 (bookIndex lengthHash "A")) = [⟨⟨true, 7, 100⟩, ⟨false, 7, 99⟩, 7⟩] ∧
    matchOrder (addOrder lengthHash (addOrder lengthHash emptyBooks true "A" 7 100)
        false "B" 7 99) (bookIndex lengthHash "A") = ⟨[], []⟩ :=
  ⟨by decide, same_book_orders_are_matched lengthHash "A" "B" 7 (by decide)⟩

/-- C10, counterexample: `addOrder(Buy,"X",0,-1)` on the empty table is not rejected;
the book of "X" then holds the order with quantity 0 and price -1. -/
theorem invalid_order_is_inserted :
    addOrder lengthHash emptyBooks true "X" 0 (-1) (bookIndex lengthHash "X")
      = ⟨[⟨true, 0, -1⟩], []⟩ ∧
    addOrder lengthHash emptyBooks true "X" 0 (-1) ≠ emptyBooks := by
  have hbook : addOrder lengthHash emptyBooks true "X" 0 (-1) (bookIndex lengthHash "X")
      = ⟨[⟨true, 0, -1⟩], []⟩ := by
    simp [addOrder_same, addToBook, insertOrder, emptyBooks]
  refine ⟨hbook, ?_⟩
  intro heq
  rw [heq] at hbook
  simp [emptyBooks] at hbook

/-- C10, amended (no validation): a call `addOrder(isBuy, ticker, qty, price)` with
`qty ≤ 0` or `price ≤ 0` is carried out like any other call: the order with the given
side, quantity and price is linked into the chosen list of book `hash(ticker) mod 1024`,
whose length grows by one, and the table differs from the one before the call. -/
theorem addOrder_no_validation (hash : String → Nat) (books : Books) (isBuy : Bool)
    (ticker : String) (qty price : Int) (_h : qty ≤ 0 ∨ price ≤ 0) :
    (⟨isBuy, qty, price⟩ : Order)
      ∈ sideList isBuy (addOrder hash books isBuy ticker qty price (bookIndex hash ticker)) ∧
    (sideList isBuy (addOrder hash books isBuy ticker qty price (bookIndex hash ticker))).length
      = (sideList isBuy (books (bookIndex hash ticker))).length + 1 ∧
    addOrder hash books isBuy ticker qty price ≠ books := by
  obtain ⟨l1, l2, h1, h2, -, -⟩ :=
    insertOrder_split ⟨isBuy, qty, price⟩ (sideList isBuy (books (bookIndex hash ticker)))
  have hlen : (sideList isBuy
      (addOrder hash books isBuy ticker qty price (bookIndex hash ticker))).length
      = (sideList isBuy (books (bookIndex hash ticker))).length + 1 := by
    rw [addOrder_same, sideList_addToBook_same, h2, h1]
    simp only [List.length_append, List.length_cons]
    omega
  refine ⟨?_, hlen, ?_⟩
  · rw [addOrder_same, sideList_addToBook_same, h2]
    simp
  · intro heq
    rw [heq] at hlen
    omega

/-- Witness of `addOrder_no_validation`: quantity 0 and price -1 on the empty table. -/
theorem addOrder_no_validation_witness :
    ((0 : Int) ≤ 0 ∨ (-1 : Int) ≤ 0) ∧
    (⟨true, 0, -1⟩ : Order)
      ∈ sideList true (addOrder lengthHash emptyBooks true "X" 0 (-1) (bookIndex lengthHash "X")) ∧
    (sideList true
        (addOrder lengthHash emptyBooks true "X" 0 (-1) (bookIndex lengthHash "X"))).length
      = (sideList true (emptyBooks (bookIndex lengthHash "X"))).length + 1 ∧
    addOrder lengthHash emptyBooks true "X" 0 (-1) ≠ emptyBooks :=
  ⟨by decide, addOrder_no_validation lengthHash emptyBooks true "X" 0 (-1) (by decide)⟩

/-! ## Positive quantities -/

/-- An execution whose calls all satisfy `A` keeps every property that holds at
the start and that each such call preserves. -/
theorem execute_induction_on (hash : String → Nat) (A : Call → Prop) (P : Run → Prop)
    (h0 : P Run.start) (hstep : ∀ r c, A c → P r → P (Run.step hash r c))
    (calls : List Call) (hcalls : ∀ c ∈ calls, A c) : P (execute hash calls) := by
  have key : ∀ (cs : List Call) (r : Run), (∀ c ∈ cs, A c) → P r →
      P (cs.foldl (Run.step hash) r) := by
    intro cs
    induction cs with
    | nil => intro r _ hr; exact hr
    | cons c cs ih =>
      intro r hcs hr
      exact ih _ (fun d hd => hcs d (List.mem_cons_of_mem _ hd))
        (hstep r c (hcs c (List.mem_cons_self _ _)) hr)
  exact key calls Run.start hcalls h0

theorem allPositive_insertOrder {o : Order} {l : List Order} (ho : 1 ≤ o.quantity)
    (hl : AllPositive l) : AllPositive (insertOrder o l) := by
  intro x hx
  rcases mem_insertOrder.1 hx with rfl | hx
  · exact ho
  · exact hl x hx

theorem allPositive_afterFill {head : Order} {rest : List Order} {q : Int}
    (hq : 0 ≤ q) (hrest : AllPositive rest) : AllPositive (afterFill head rest q) := by
  unfold afterFill
  split
  · exact hrest
  · intro x hx
    rcases List.mem_cons.1 hx with rfl | hx
    · show 1 ≤ q
      omega
    · exact hrest x hx

/-- With positive quantities on both lists the loop keeps them positive and every
fill is sound. -/
theorem matchLoop_positive (buys sells : List Order) (hb : AllPositive buys)
    (hs : AllPositive sells) :
    AllPositive (matchLoop buys sells).1.1 ∧ AllPositive (matchLoop buys sells).1.2 ∧
      ∀ f ∈ (matchLoop buys sells).2, f.Sound := by
  induction buys, sells using matchLoop.induct with
  | case1 buy buys sell sells h matchQty ih =>
    simp only [matchQty] at ih
    rw [matchLoop_cross _ _ _ _ h]
    have hbq : 1 ≤ buy.quantity := hb buy (List.mem_cons_self _ _)
    have hsq : 1 ≤ sell.quantity := hs sell (List.mem_cons_self _ _)
    have hbs : AllPositive buys := fun x hx => hb x (List.mem_cons_of_mem _ hx)
    have hss : AllPositive sells := fun x hx => hs x (List.mem_cons_of_mem _ hx)
    obtain ⟨i1, i2, i3⟩ := ih
      (allPositive_afterFill (by omega) hbs) (allPositive_afterFill (by omega) hss)
    refine ⟨i1, i2, ?_⟩
    intro f hf
    rcases List.mem_cons.1 hf with rfl | hf
    · exact ⟨by show 1 ≤ min buy.quantity sell.quantity; omega,
        by show min buy.quantity sell.quantity ≤ buy.quantity; omega,
        by show min buy.quantity sell.quantity ≤ sell.quantity; omega⟩
    · exact i3 f hf
  | case2 buy buys sell sells h =>
    rw [matchLoop_apart _ _ _ _ h]
    exact ⟨hb, hs, by simp⟩
  | case3 sells =>
    rw [matchLoop_nil_left]
    exact ⟨hb, hs, by simp⟩
  | case4 buys _ =>
    rw [matchLoop_nil_right]
    exact ⟨hb, hs, by simp⟩

/-- C11 (quantity stays positive while resident): when every `addOrder` call of a
sequential execution from the empty state submits a quantity of at least 1, every
order resident in any list has quantity at least 1, and every fill performed took a
quantity between 1 and the quantity of either order, so that no fill drove a quantity
below zero and no order of quantity zero stayed in a list. -/
theorem quantity_stays_positive (hash : String → Nat) (calls : List Call)
    (hcalls : ∀ c ∈ calls, c.SubmitsPositive) (i : Fin NUM_TICKERS) :
    AllPositive ((execute hash calls).books i).buyHead ∧
    AllPositive ((execute hash calls).books i).sellHead ∧
    ∀ f ∈ (execute hash calls).fills i, f.Sound := by
  refine execute_induction_on hash Call.SubmitsPositive
    (fun r => ∀ i, AllPositive (r.books i).buyHead ∧ AllPositive (r.books i).sellHead ∧
      ∀ f ∈ r.fills i, f.Sound) ?_ ?_ calls hcalls i
  · intro j
    simp [Run.start, emptyBooks, AllPositive]
  · intro r c hc hr j
    obtain ⟨h1, h2, h3⟩ := hr j
    cases c with
    | add isBuy ticker qty price =>
      have hq : 1 ≤ qty := hc
      by_cases hj : j = bookIndex hash ticker
      · subst hj
        simp only [Run.step, addOrder_same]
        cases isBuy with
        | true => exact ⟨allPositive_insertOrder hq h1, h2, h3⟩
        | false => exact ⟨h1, allPositive_insertOrder hq h2, h3⟩
      · simp only [Run.step, addOrder_other _ _ _ _ _ _ hj]
        exact ⟨h1, h2, h3⟩
    | matchAll =>
      obtain ⟨m1, m2, m3⟩ := matchLoop_positive _ _ h1 h2
      refine ⟨m1, m2, ?_⟩
      intro f hf
      rcases List.mem_append.1 hf with hf | hf
      · exact h3 f hf
      · exact m3 f hf

/-- Witness of `quantity_stays_positive`: the scenario of two bids and one ask. -/
theorem quantity_stays_positive_witness :
    (∀ c ∈ scenarioCalls, c.SubmitsPositive) ∧
    AllPositive ((execute lengthHash scenarioCalls).books (bookIndex lengthHash "X")).buyHead ∧
    AllPositive ((execute lengthHash scenarioCalls).books (bookIndex lengthHash "X")).sellHead ∧
    ∀ f ∈ (execute lengthHash scenarioCalls).fills (bookIndex lengthHash "X"), f.Sound :=
  ⟨by simp [scenarioCalls, Call.SubmitsPositive],
    quantity_stays_positive lengthHash scenarioCalls
      (by simp [scenarioCalls, Call.SubmitsPositive]) (bookIndex lengthHash "X")⟩

/-! ## Length of a drain -/

/-- One head is set to zero by every fill, also when the subtraction wraps around. -/
theorem sub_min_zero_wrapped (a b : Int) :
    wrapInt32 (a - min a b) = 0 ∨ wrapInt32 (b - min a b) = 0 := by
  rcases sub_min_zero a b with h | h
  · left; rw [h]; decide
  · right; rw [h]; decide

/-- Every fill shortens the book: fills plus orders left never exceed the orders found. -/
theorem matchLoop_length (buys sells : List Order) :
    (matchLoop buys sells).2.length
        + ((matchLoop buys sells).1.1.length + (matchLoop buys sells).1.2.length)
      ≤ buys.length + sells.length := by
  induction buys, sells using matchLoop.induct with
  | case1 buy buys sell sells h matchQty ih =>
    simp only [matchQty] at ih
    rw [matchLoop_cross _ _ _ _ h]
    have lb := afterFill_length_le buy buys (buy.quantity - min buy.quantity sell.quantity)
    have ls := afterFill_length_le sell sells (sell.quantity - min buy.quantity sell.quantity)
    simp only [List.length_cons]
    rcases sub_min_zero buy.quantity sell.quantity with hz | hz
    · have lb0 : (afterFill buy buys (buy.quantity - min buy.quantity sell.quantity)).length
          = buys.length := by rw [hz, afterFill_zero]
      omega
    · have ls0 : (afterFill sell sells (sell.quantity - min buy.quantity sell.quantity)).length
          = sells.length := by rw [hz, afterFill_zero]
      omega
  | case2 buy buys sell sells h =>
    rw [matchLoop_apart _ _ _ _ h]
    simp
  | case3 sells =>
    rw [matchLoop_nil_left]
    simp
  | case4 buys _ =>
    rw [matchLoop_nil_right]
    simp

/-- C12 (finite drain): on every table, also one holding zero or negative quantities,
each pass of the matching loop over a crossing pair unlinks at least one of the two
heads, and the number of fills of a book plus the number of orders it keeps is at most
the number of orders it held when the call started; the loop is a total function. -/
theorem finite_drain (books : Books) (i : Fin NUM_TICKERS) :
    (∀ (buy sell : Order) (buys sells : List Order),
      afterFill buy buys (buy.quantity - min buy.quantity sell.quantity) = buys ∨
      afterFill sell sells (sell.quantity - min buy.quantity sell.quantity) = sells) ∧
    (bookFills (books i)).length
        + ((matchOrder books i).buyHead.length + (matchOrder books i).sellHead.length)
      ≤ (books i).buyHead.length + (books i).sellHead.length ∧
    (bookFills (books i)).length ≤ (books i).buyHead.length + (books i).sellHead.length ∧
    NoCrossingHeads (matchOrder books i) := by
  have hlen := matchLoop_length (books i).buyHead (books i).sellHead
  refine ⟨?_, hlen, ?_, matchLoop_noCrossing _ _⟩
  · intro buy sell buys sells
    rcases sub_min_zero buy.quantity sell.quantity with hz | hz
    · left; rw [hz, afterFill_zero]
    · right; rw [hz, afterFill_zero]
  · unfold bookFills
    omega

/-- C13 (routing): the book index of a ticker is `hash(ticker) mod 1024`, lies in
0..1023, depends on the ticker only, and every `addOrder` call for the ticker works on
that slot: no other book changes and the chosen list of that book gains one order. -/
theorem routing_deterministic (hash : String → Nat) (ticker : String) :
    (bookIndex hash ticker).val = hash ticker % 1024 ∧
    (bookIndex hash ticker).val < 1024 ∧
    (∀ other : String, other = ticker → bookIndex hash other = bookIndex hash ticker) ∧
    ∀ (books : Books) (isBuy : Bool) (qty price : Int),
      (∀ j, j ≠ bookIndex hash ticker → addOrder hash books isBuy ticker qty price j = books j) ∧
      (sideList isBuy (addOrder hash books isBuy ticker qty price (bookIndex hash ticker))).length
        = (sideList isBuy (books (bookIndex hash ticker))).length + 1 := by
  refine ⟨rfl, (bookIndex hash ticker).isLt, ?_, ?_⟩
  · intro other h
    rw [h]
  · intro books isBuy qty price
    refine ⟨fun j hj => addOrder_other _ _ _ _ _ _ hj, ?_⟩
    obtain ⟨l1, l2, h1, h2, -, -⟩ :=
      insertOrder_split ⟨isBuy, qty, price⟩ (sideList isBuy (books (bookIndex hash ticker)))
    rw [addOrder_same, sideList_addToBook_same, h2, h1]
    simp only [List.length_append, List.length_cons]
    omega

/-! ## Negative quantities -/

theorem negativeBid_book (hash : String → Nat) :
    negativeBid hash (bookIndex hash "X") = ⟨[⟨true, -5, 100⟩], [⟨false, 3, 99⟩]⟩ := by
  simp [negativeBid, addOrder_same, addToBook, insertOrder, emptyBooks]

/-- C15, counterexample: with a buy of quantity -5 at 100 and a sell of quantity 3 at
99 in the book of "X", `matchOrder` performs the fill with `matchQty = -5`, unlinks
the buy and raises the quantity of the resident sell from 3 to 8; no subtraction
overflows, and the loop in 32-bit arithmetic does the same. -/
theorem negative_quantity_is_filled :
    negativeBid lengthHash (bookIndex lengthHash "X")
      = ⟨[⟨true, -5, 100⟩], [⟨false, 3, 99⟩]⟩ ∧
    bookFills (negativeBid lengthHash (bookIndex lengthHash "X"))
      = [⟨⟨true, -5, 100⟩, ⟨false, 3, 99⟩, -5⟩] ∧
    matchOrder (negativeBid lengthHash) (bookIndex lengthHash "X")
      = ⟨[], [⟨false, 8, 99⟩]⟩ ∧
    bookFills32 (negativeBid lengthHash (bookIndex lengthHash "X"))
      = [⟨⟨true, -5, 100⟩, ⟨false, 3, 99⟩, -5⟩] ∧
    matchOrder32 (negativeBid lengthHash) (bookIndex lengthHash "X")
      = ⟨[], [⟨false, 8, 99⟩]⟩ := by
  have hloop : matchLoop [⟨true, -5, 100⟩] [⟨false, 3, 99⟩]
      = (([], [⟨false, 8, 99⟩]), [⟨⟨true, -5, 100⟩, ⟨false, 3, 99⟩, -5⟩]) := by
    simp [matchLoop, afterFill]
  have hloop32 : matchLoop32 [⟨true, -5, 100⟩] [⟨false, 3, 99⟩]
      = (([], [⟨false, 8, 99⟩]), [⟨⟨true, -5, 100⟩, ⟨false, 3, 99⟩, -5⟩]) := by
    simp [matchLoop32, afterFill, wrapInt32]
  refine ⟨negativeBid_book _, ?_, ?_, ?_, ?_⟩
  · rw [bookFills, negativeBid_book, hloop]
  · rw [matchOrder, matchBook, negativeBid_book, hloop]
  · rw [bookFills32, negativeBid_book, hloop32]
  · rw [matchOrder32, matchBook32, negativeBid_book, hloop32]

/-! ## Retry loop -/

theorem search_link (o : Order) (walked l : List Order) :
    (search o walked l).walked ++ o :: (search o walked l).ahead
      = walked ++ insertOrder o l := by
  induction l generalizing walked with
  | nil => simp [search, insertOrder]
  | cons c rest ih =>
    by_cases hw : walksPast o.isBuy o.price c = true
    · simp only [search, insertOrder, hw, if_true]
      rw [ih]
      simp
    · simp [search, insertOrder, hw]

theorem addLoop_failures (o : Order) (list : List Order) (seen : List (List Order))
    (rest : List Cas) :
    addLoop o ⟨[], list⟩ (seen.map Cas.failure ++ rest)
      = addLoop o ⟨[], lastSeen list seen⟩ rest := by
  induction seen generalizing list with
  | nil => rfl
  | cons l later ih =>
    simp only [List.map_cons, List.cons_append, addLoop, lastSeen]
    exact ih l

/-- C16 (restart from head on a failed exchange): with the outcome of every
compare-and-swap of `addOrder` given as an input, a failed exchange is followed by a
search from the head just read, with no predecessor, whatever `prev` and `current`
were; nothing is linked while exchanges fail; and the first successful exchange links
the new order once, at the place found from the head of the chain read last. -/
theorem restart_from_head (newOrder : Order) (list : List Order)
    (seen : List (List Order)) (more : List Cas) :
    (∀ (c : Cursor) (listNow : List Order) (rest : List Cas),
      addLoop newOrder c (Cas.failure listNow :: rest)
        = addLoop newOrder ⟨[], listNow⟩ rest) ∧
    addAttempts newOrder list (seen.map Cas.failure) = none ∧
    addAttempts newOrder list (seen.map Cas.failure ++ Cas.success :: more)
      = some (insertOrder newOrder (lastSeen list seen)) ∧
    ∃ l1 l2, lastSeen list seen = l1 ++ l2 ∧
      addAttempts newOrder list (seen.map Cas.failure ++ Cas.success :: more)
        = some (l1 ++ newOrder :: l2) := by
  have hsucc : addAttempts newOrder list (seen.map Cas.failure ++ Cas.success :: more)
      = some (insertOrder newOrder (lastSeen list seen)) := by
    rw [addAttempts, addLoop_failures]
    simp only [addLoop]
    rw [search_link]
    simp
  refine ⟨fun c listNow rest => by simp only [addLoop], ?_, hsucc, ?_⟩
  · have := addLoop_failures newOrder list seen []
    rw [List.append_nil] at this
    rw [addAttempts, this]
    simp only [addLoop]
  · obtain ⟨l1, l2, h1, h2, -, -⟩ := insertOrder_split newOrder (lastSeen list seen)
    exact ⟨l1, l2, h1, by rw [hsucc, h2]⟩

/-! ## Consumption from the head -/

theorem consumed_refl (l : List Order) : ConsumedFromHead l l :=
  Or.inl (List.suffix_refl l)

theorem consumed_afterFill (head : Order) (rest : List Order) (q : Int) (h0 : 0 ≤ q)
    (hlt : q < head.quantity) : ConsumedFromHead (head :: rest) (afterFill head rest q) := by
  unfold afterFill
  split
  · exact Or.inl (List.suffix_cons _ _)
  · exact Or.inr ⟨head, rest, q, List.suffix_refl _, rfl, by omega, hlt⟩

theorem suffix_afterFill {x : List Order} {head : Order} {rest : List Order} {q : Int}
    (h : x <:+ afterFill head rest q) : x = afterFill head rest q ∨ x <:+ rest := by
  unfold afterFill at h ⊢
  split at h
  · exact Or.inr h
  · rename_i hq
    rw [if_neg hq]
    exact List.suffix_cons_iff.1 h

theorem consumed_trans {a b c : List Order} (h1 : ConsumedFromHead a b)
    (h2 : ConsumedFromHead b c) : ConsumedFromHead a c := by
  rcases h1 with h1 | ⟨h, t, q, hs, rfl, hq1, hq2⟩
  · rcases h2 with h2 | ⟨h', t', q', hs', rfl, hq1', hq2'⟩
    · exact Or.inl (h2.trans h1)
    · exact Or.inr ⟨h', t', q', hs'.trans h1, rfl, hq1', hq2'⟩
  · rcases h2 with h2 | ⟨h', t', q', hs', rfl, hq1', hq2'⟩
    · rcases List.suffix_cons_iff.1 h2 with rfl | h2
      · exact Or.inr ⟨h, t, q, hs, rfl, hq1, hq2⟩
      · exact Or.inl (h2.trans ((List.suffix_cons _ _).trans hs))
    · rcases List.suffix_cons_iff.1 hs' with heq | hs'
      · injection heq with e1 e2
        subst e1 e2
        exact Or.inr ⟨h, _, q', hs, rfl, hq1', by simp only at hq2'; omega⟩
      · exact Or.inr ⟨h', t', q', hs'.trans ((List.suffix_cons _ _).trans hs), rfl, hq1', hq2'⟩

theorem filledQty_ge_length (fills : List Fill) (h : ∀ f ∈ fills, f.Sound) :
    (fills.length : Int) ≤ filledQty fills := by
  induction fills with
  | nil => simp [filledQty]
  | cons f fs ih =>
    have h1 := (h f (List.mem_cons_self _ _)).1
    have h2 := ih (fun g hg => h g (List.mem_cons_of_mem _ hg))
    simp only [filledQty, List.map_cons, List.sum_cons, List.length_cons] at h2 ⊢
    push_cast
    omega

theorem matchLoop_no_fill (buys sells : List Order) (h : (matchLoop buys sells).2 = []) :
    (matchLoop buys sells).1 = (buys, sells) := by
  cases buys with
  | nil => rw [matchLoop_nil_left]
  | cons b bs =>
    cases sells with
    | nil => rw [matchLoop_nil_right]
    | cons s ss =>
      by_cases hc : b.price ≥ s.price
      · rw [matchLoop_cross _ _ _ _ hc] at h
        simp at h
      · rw [matchLoop_apart _ _ _ _ hc]

/-- With positive quantities, a list that comes out of the loop as it went in means
that the loop performed no fill, so the other list is unchanged as well. -/
theorem matchLoop_unchanged (buys sells : List Order) (hb : AllPositive buys)
    (hs : AllPositive sells)
    (h : (matchLoop buys sells).1.1 = buys ∨ (matchLoop buys sells).1.2 = sells) :
    (matchLoop buys sells).1 = (buys, sells) := by
  apply matchLoop_no_fill
  obtain ⟨t1, t2⟩ := matchLoop_totalQty buys sells
  have hge := filledQty_ge_length _ (matchLoop_positive buys sells hb hs).2.2
  have hzero : filledQty (matchLoop buys sells).2 = 0 := by
    rcases h with h | h
    · rw [h] at t1; omega
    · rw [h] at t2; omega
  rw [hzero] at hge
  exact List.length_eq_zero.1 (by omega)

/-- With positive quantities each list is consumed from the head, and one of the two
lists comes out as an exact suffix of what it was. -/
theorem matchLoop_consumed (buys sells : List Order) (hb : AllPositive buys)
    (hs : AllPositive sells) :
    ConsumedFromHead buys (matchLoop buys sells).1.1 ∧
    ConsumedFromHead sells (matchLoop buys sells).1.2 ∧
    ((matchLoop buys sells).1.1 <:+ buys ∨ (matchLoop buys sells).1.2 <:+ sells) := by
  induction buys, sells using matchLoop.induct with
  | case1 buy buys sell sells h matchQty ih =>
    simp only [matchQty] at ih
    rw [matchLoop_cross _ _ _ _ h]
    have hbq : 1 ≤ buy.quantity := hb buy (List.mem_cons_self _ _)
    have hsq : 1 ≤ sell.quantity := hs sell (List.mem_cons_self _ _)
    have hbs : AllPositive buys := fun x hx => hb x (List.mem_cons_of_mem _ hx)
    have hss : AllPositive sells := fun x hx => hs x (List.mem_cons_of_mem _ hx)
    have pb : AllPositive (afterFill buy buys (buy.quantity - min buy.quantity sell.quantity)) :=
      allPositive_afterFill (by omega) hbs
    have ps : AllPositive (afterFill sell sells (sell.quantity - min buy.quantity sell.quantity)) :=
      allPositive_afterFill (by omega) hss
    have cb := consumed_afterFill buy buys (buy.quantity - min buy.quantity sell.quantity)
      (by omega) (by omega)
    have cs := consumed_afterFill sell sells (sell.quantity - min buy.quantity sell.quantity)
      (by omega) (by omega)
    obtain ⟨i1, i2, i3⟩ := ih pb ps
    refine ⟨consumed_trans cb i1, consumed_trans cs i2, ?_⟩
    have hun := matchLoop_unchanged _ _ pb ps
    show (matchLoop (afterFill buy buys (buy.quantity - min buy.quantity sell.quantity))
          (afterFill sell sells (sell.quantity - min buy.quantity sell.quantity))).1.1
          <:+ buy :: buys ∨
        (matchLoop (afterFill buy buys (buy.quantity - min buy.quantity sell.quantity))
          (afterFill sell sells (sell.quantity - min buy.quantity sell.quantity))).1.2
          <:+ sell :: sells
    rcases sub_min_zero buy.quantity sell.quantity with hz | hz
    · have hsuf : afterFill buy buys (buy.quantity - min buy.quantity sell.quantity)
          <:+ buy :: buys := by
        rw [hz, afterFill_zero]
        exact List.suffix_cons _ _
      rcases i3 with i3 | i3
      · exact Or.inl (i3.trans hsuf)
      · rcases suffix_afterFill i3 with heq | i3
        · left
          rw [hun (Or.inr heq)]
          exact hsuf
        · exact Or.inr (i3.trans (List.suffix_cons _ _))
    · have hsuf : afterFill sell sells (sell.quantity - min buy.quantity sell.quantity)
          <:+ sell :: sells := by
        rw [hz, afterFill_zero]
        exact List.suffix_cons _ _
      rcases i3 with i3 | i3
      · rcases suffix_afterFill i3 with heq | i3
        · right
          rw [hun (Or.inl heq)]
          exact hsuf
        · exact Or.inl (i3.trans (List.suffix_cons _ _))
      · exact Or.inr (i3.trans hsuf)
  | case2 buy buys sell sells h =>
    rw [matchLoop_apart _ _ _ _ h]
    exact ⟨consumed_refl _, consumed_refl _, Or.inl (List.suffix_refl _)⟩
  | case3 sells =>
    rw [matchLoop_nil_left]
    exact ⟨consumed_refl _, consumed_refl _, Or.inl (List.suffix_refl _)⟩
  | case4 buys _ =>
    rw [matchLoop_nil_right]
    exact ⟨consumed_refl _, consumed_refl _, Or.inl (List.suffix_refl _)⟩

/-- C17 (matching only consumes from the head): in a book whose resident quantities
are all at least 1, after `matchOrder` each list is a suffix of the list it was, except
that its first order may have a smaller quantity, still at least 1; the other orders
keep their quantity, no price or side changes, and at most one of the two lists has a
head that was reduced without being removed. -/
theorem matching_consumes_from_head (books : Books) (i : Fin NUM_TICKERS)
    (hb : AllPositive (books i).buyHead) (hs : AllPositive (books i).sellHead) :
    ConsumedFromHead (books i).buyHead (matchOrder books i).buyHead ∧
    ConsumedFromHead (books i).sellHead (matchOrder books i).sellHead ∧
    ((matchOrder books i).buyHead <:+ (books i).buyHead ∨
      (matchOrder books i).sellHead <:+ (books i).sellHead) :=
  matchLoop_consumed (books i).buyHead (books i).sellHead hb hs

/-- Witness of `matching_consumes_from_head`: the book of "X" with two bids and one ask. -/
theorem matching_consumes_from_head_witness :
    AllPositive (twoBidsOneAsk lengthHash (bookIndex lengthHash "X")).buyHead ∧
    AllPositive (twoBidsOneAsk lengthHash (bookIndex lengthHash "X")).sellHead ∧
    ConsumedFromHead (twoBidsOneAsk lengthHash (bookIndex lengthHash "X")).buyHead
      (matchOrder (twoBidsOneAsk lengthHash) (bookIndex lengthHash "X")).buyHead ∧
    ConsumedFromHead (twoBidsOneAsk lengthHash (bookIndex lengthHash "X")).sellHead
      (matchOrder (twoBidsOneAsk lengthHash) (bookIndex lengthHash "X")).sellHead ∧
    ((matchOrder (twoBidsOneAsk lengthHash) (bookIndex lengthHash "X")).buyHead
        <:+ (twoBidsOneAsk lengthHash (bookIndex lengthHash "X")).buyHead ∨
      (matchOrder (twoBidsOneAsk lengthHash) (bookIndex lengthHash "X")).sellHead
        <:+ (twoBidsOneAsk lengthHash (bookIndex lengthHash "X")).sellHead) :=
  have hb : AllPositive (twoBidsOneAsk lengthHash (bookIndex lengthHash "X")).buyHead := by
    rw [twoBidsOneAsk_book]
    simp [AllPositive]
  have hs : AllPositive (twoBidsOneAsk lengthHash (bookIndex lengthHash "X")).sellHead := by
    rw [twoBidsOneAsk_book]
    simp [AllPositive]
  ⟨hb, hs, matching_consumes_from_head (twoBidsOneAsk lengthHash) (bookIndex lengthHash "X") hb hs⟩

/-! ## Agreement of the two loops -/

theorem wrapInt32_of_range (x : Int) (h1 : -(2 ^ 31) ≤ x) (h2 : x < 2 ^ 31) :
    wrapInt32 x = x := by
  unfold wrapInt32
  omega

theorem matchLoop32_cross (buy sell : Order) (buys sells : List Order)
    (h : buy.price ≥ sell.price) :
    matchLoop32 (buy :: buys) (sell :: sells) =
      ((matchLoop32
          (afterFill buy buys (wrapInt32 (buy.quantity - min buy.quantity sell.quantity)))
          (afterFill sell sells (wrapInt32 (sell.quantity - min buy.quantity sell.quantity)))).1,
        ⟨buy, sell, min buy.quantity sell.quantity⟩ ::
          (matchLoop32
            (afterFill buy buys (wrapInt32 (buy.quantity - min buy.quantity sell.quantity)))
            (afterFill sell sells
              (wrapInt32 (sell.quantity - min buy.quantity sell.quantity)))).2) := by
  rw [matchLoop32]
  simp [h]

theorem matchLoop32_apart (buy sell : Order) (buys sells : List Order)
    (h : ¬ buy.price ≥ sell.price) :
    matchLoop32 (buy :: buys) (sell :: sells) = ((buy :: buys, sell :: sells), []) := by
  rw [matchLoop32]
  simp [h]

theorem matchLoop32_nil_left (sells : List Order) :
    matchLoop32 [] sells = (([], sells), []) := by
  rw [matchLoop32]

theorem matchLoop32_nil_right (buys : List Order) :
    matchLoop32 buys [] = ((buys, []), []) := by
  cases buys with
  | nil => rw [matchLoop32]
  | cons b bs =>
    rw [matchLoop32]
    simp

theorem inRange_afterFill {head : Order} {rest : List Order} {q : Int}
    (h0 : 0 ≤ q) (h1 : q < 2 ^ 31) (hrest : InRange rest) :
    InRange (afterFill head rest q) := by
  unfold afterFill
  split
  · exact hrest
  · intro x hx
    rcases List.mem_cons.1 hx with rfl | hx
    · exact ⟨h0, h1⟩
    · exact hrest x hx

/-- On lists of non-negative `int` quantities no subtraction overflows: the 32-bit
loop and the loop over exact integers give the same lists and fills, and the lists
left hold non-negative `int` quantities again. -/
theorem matchLoop32_eq_matchLoop (buys sells : List Order) (hb : InRange buys)
    (hs : InRange sells) :
    matchLoop32 buys sells = matchLoop buys sells ∧
      InRange (matchLoop buys sells).1.1 ∧ InRange (matchLoop buys sells).1.2 := by
  induction buys, sells using matchLoop.induct with
  | case1 buy buys sell sells h matchQty ih =>
    simp only [matchQty] at ih
    have hbq := hb buy (List.mem_cons_self _ _)
    have hsq := hs sell (List.mem_cons_self _ _)
    have hbs : InRange buys := fun x hx => hb x (List.mem_cons_of_mem _ hx)
    have hss : InRange sells := fun x hx => hs x (List.mem_cons_of_mem _ hx)
    have wb : wrapInt32 (buy.quantity - min buy.quantity sell.quantity)
        = buy.quantity - min buy.quantity sell.quantity :=
      wrapInt32_of_range _ (by omega) (by omega)
    have ws : wrapInt32 (sell.quantity - min buy.quantity sell.quantity)
        = sell.quantity - min buy.quantity sell.quantity :=
      wrapInt32_of_range _ (by omega) (by omega)
    obtain ⟨i1, i2, i3⟩ := ih (inRange_afterFill (by omega) (by omega) hbs)
      (inRange_afterFill (by omega) (by omega) hss)
    rw [matchLoop32_cross _ _ _ _ h, matchLoop_cross _ _ _ _ h, wb, ws, i1]
    exact ⟨rfl, i2, i3⟩
  | case2 buy buys sell sells h =>
    rw [matchLoop32_apart _ _ _ _ h, matchLoop_apart _ _ _ _ h]
    exact ⟨rfl, hb, hs⟩
  | case3 sells =>
    rw [matchLoop32_nil_left, matchLoop_nil_left]
    exact ⟨rfl, hb, hs⟩
  | case4 buys _ =>
    rw [matchLoop32_nil_right, matchLoop_nil_right]
    exact ⟨rfl, hb, hs⟩

theorem inRange_insertOrder {o : Order} {l : List Order}
    (ho : 0 ≤ o.quantity ∧ o.quantity < 2 ^ 31) (hl : InRange l) :
    InRange (insertOrder o l) := by
  intro x hx
  rcases mem_insertOrder.1 hx with rfl | hx
  · exact ho
  · exact hl x hx

/-- When every call submits a non-negative `int` quantity, the execution in 32-bit
arithmetic is the execution over exact integers, and all resident quantities are
non-negative `int` values. -/
theorem execute32_eq_execute (hash : String → Nat) (calls : List Call)
    (hcalls : ∀ c ∈ calls, c.SubmitsNonneg) :
    execute32 hash calls = execute hash calls ∧
      ∀ i, InRange ((execute hash calls).books i).buyHead ∧
        InRange ((execute hash calls).books i).sellHead := by
  have key : ∀ (cs : List Call) (r : Run), (∀ c ∈ cs, c.SubmitsNonneg) →
      (∀ i, InRange (r.books i).buyHead ∧ InRange (r.books i).sellHead) →
      cs.foldl (Run.step32 hash) r = cs.foldl (Run.step hash) r ∧
        ∀ i, InRange ((cs.foldl (Run.step hash) r).books i).buyHead ∧
          InRange ((cs.foldl (Run.step hash) r).books i).sellHead := by
    intro cs
    induction cs with
    | nil => intro r _ hr; exact ⟨rfl, hr⟩
    | cons c cs ih =>
      intro r hcs hr
      have hc := hcs c (List.mem_cons_self _ _)
      have hrest : ∀ d ∈ cs, d.SubmitsNonneg := fun d hd => hcs d (List.mem_cons_of_mem _ hd)
      have hstep : Run.step32 hash r c = Run.step hash r c := by
        cases c with
        | add isBuy ticker qty price => rfl
        | matchAll =>
          have hloop : ∀ i, matchLoop32 (r.books i).buyHead (r.books i).sellHead
              = matchLoop (r.books i).buyHead (r.books i).sellHead :=
            fun i => (matchLoop32_eq_matchLoop _ _ (hr i).1 (hr i).2).1
          have hbooks : matchOrder32 r.books = matchOrder r.books := by
            funext i
            simp only [matchOrder32, matchOrder, matchBook32, matchBook, hloop]
          simp only [Run.step32, Run.step, bookFills32, bookFills, hloop, hbooks]
      have hnext : ∀ i, InRange ((Run.step hash r c).books i).buyHead ∧
          InRange ((Run.step hash r c).books i).sellHead := by
        intro i
        cases c with
        | add isBuy ticker qty price =>
          have hq : 0 ≤ qty ∧ qty < 2 ^ 31 := hc
          by_cases hi : i = bookIndex hash ticker
          · subst hi
            simp only [Run.step, addOrder_same]
            cases isBuy with
            | true => exact ⟨inRange_insertOrder hq (hr _).1, (hr _).2⟩
            | false => exact ⟨(hr _).1, inRange_insertOrder hq (hr _).2⟩
          · simp only [Run.step, addOrder_other _ _ _ _ _ _ hi]
            exact hr i
        | matchAll =>
          have := matchLoop32_eq_matchLoop _ _ (hr i).1 (hr i).2
          exact ⟨this.2.1, this.2.2⟩
      simp only [List.foldl_cons]
      rw [hstep]
      exact ih _ hrest hnext
  exact key calls Run.start hcalls (fun i => by simp [Run.start, emptyBooks, InRange])

/-! ## Claims settled in 32-bit arithmetic -/

/-- C3, amended (conservation per side, non-negative quantities): when every
`addOrder` call of a sequential execution from the empty state submits a non-negative
quantity, no subtraction overflows, and in every book the quantity resident in the buy
list plus the sum of `matchQty` over all fills of that book equals the quantity
submitted with `isBuy = true`, and likewise for the sell list and `isBuy = false`; over
both lists together every fill therefore counts twice. The execution is the one in
32-bit arithmetic, which here coincides with the one over exact integers. -/
theorem per_side_conservation (hash : String → Nat) (calls : List Call)
    (hcalls : ∀ c ∈ calls, c.SubmitsNonneg) (i : Fin NUM_TICKERS) :
    totalQty ((execute32 hash calls).books i).buyHead
        + filledQty ((execute32 hash calls).fills i)
      = submittedQty true ((execute32 hash calls).submitted i) ∧
    totalQty ((execute32 hash calls).books i).sellHead
        + filledQty ((execute32 hash calls).fills i)
      = submittedQty false ((execute32 hash calls).submitted i) ∧
    residentQty ((execute32 hash calls).books i)
        + 2 * filledQty ((execute32 hash calls).fills i)
      = submittedQty true ((execute32 hash calls).submitted i)
        + submittedQty false ((execute32 hash calls).submitted i) ∧
    execute32 hash calls = execute hash calls := by
  have heq := (execute32_eq_execute hash calls hcalls).1
  obtain ⟨h1, h2⟩ := execute_side_balance hash calls i
  rw [heq]
  refine ⟨h1, h2, ?_, rfl⟩
  unfold residentQty
  omega

/-- Witness of `per_side_conservation`: the scenario of two bids and one ask. -/
theorem per_side_conservation_witness :
    (∀ c ∈ scenarioCalls, c.SubmitsNonneg) ∧
    totalQty ((execute32 lengthHash scenarioCalls).books (bookIndex lengthHash "X")).buyHead
        + filledQty ((execute32 lengthHash scenarioCalls).fills (bookIndex lengthHash "X"))
      = submittedQty true
          ((execute32 lengthHash scenarioCalls).submitted (bookIndex lengthHash "X")) ∧
    totalQty ((execute32 lengthHash scenarioCalls).books (bookIndex lengthHash "X")).sellHead
        + filledQty ((execute32 lengthHash scenarioCalls).fills (bookIndex lengthHash "X"))
      = submittedQty false
          ((execute32 lengthHash scenarioCalls).submitted (bookIndex lengthHash "X")) ∧
    residentQty ((execute32 lengthHash scenarioCalls).books (bookIndex lengthHash "X"))
        + 2 * filledQty ((execute32 lengthHash scenarioCalls).fills (bookIndex lengthHash "X"))
      = submittedQty true
          ((execute32 lengthHash scenarioCalls).submitted (bookIndex lengthHash "X"))
        + submittedQty false
          ((execute32 lengthHash scenarioCalls).submitted (bookIndex lengthHash "X")) ∧
    execute32 lengthHash scenarioCalls = execute lengthHash scenarioCalls :=
  ⟨by simp [scenarioCalls, Call.SubmitsNonneg],
    per_side_conservation lengthHash scenarioCalls
      (by simp [scenarioCalls, Call.SubmitsNonneg]) (bookIndex lengthHash "X")⟩

/-- C15, amended (a negative quantity is filled like any other): in every book whose
heads cross and whose head buy or head sell has a negative quantity, `matchOrder`
carries out the fill with the negative `matchQty = min(buy quantity, sell quantity)`:
it is subtracted from both head quantities in 32-bit arithmetic, a head that reaches
zero is unlinked (at least one does), and matching goes on with the lists so obtained;
a head quantity whose subtraction does not overflow grows by the absolute value of
`matchQty`. -/
theorem negative_quantity_tolerated (books : Books) (i : Fin NUM_TICKERS)
    (buy sell : Order) (buys sells : List Order)
    (hb : (books i).buyHead = buy :: buys) (hs : (books i).sellHead = sell :: sells)
    (hcross : buy.price ≥ sell.price) (hneg : buy.quantity < 0 ∨ sell.quantity < 0)
    (hbr : -(2 ^ 31) ≤ buy.quantity ∧ buy.quantity < 2 ^ 31)
    (hsr : -(2 ^ 31) ≤ sell.quantity ∧ sell.quantity < 2 ^ 31) :
    min buy.quantity sell.quantity < 0 ∧
    bookFills32 (books i) = ⟨buy, sell, min buy.quantity sell.quantity⟩ ::
      bookFills32
        ⟨afterFill buy buys (wrapInt32 (buy.quantity - min buy.quantity sell.quantity)),
          afterFill sell sells (wrapInt32 (sell.quantity - min buy.quantity sell.quantity))⟩ ∧
    matchOrder32 books i
      = matchBook32
        ⟨afterFill buy buys (wrapInt32 (buy.quantity - min buy.quantity sell.quantity)),
          afterFill sell sells (wrapInt32 (sell.quantity - min buy.quantity sell.quantity))⟩ ∧
    (afterFill buy buys (wrapInt32 (buy.quantity - min buy.quantity sell.quantity)) = buys ∨
      afterFill sell sells (wrapInt32 (sell.quantity - min buy.quantity sell.quantity))
        = sells) ∧
    (buy.quantity - min buy.quantity sell.quantity < 2 ^ 31 →
      wrapInt32 (buy.quantity - min buy.quantity sell.quantity)
          = buy.quantity - min buy.quantity sell.quantity ∧
        buy.quantity < buy.quantity - min buy.quantity sell.quantity) ∧
    (sell.quantity - min buy.quantity sell.quantity < 2 ^ 31 →
      wrapInt32 (sell.quantity - min buy.quantity sell.quantity)
          = sell.quantity - min buy.quantity sell.quantity ∧
        sell.quantity < sell.quantity - min buy.quantity sell.quantity) := by
  have hmin : min buy.quantity sell.quantity < 0 := by omega
  refine ⟨hmin, ?_, ?_, ?_, ?_, ?_⟩
  · simp only [bookFills32, hb, hs]
    rw [matchLoop32_cross _ _ _ _ hcross]
  · simp only [matchOrder32, matchBook32, hb, hs]
    rw [matchLoop32_cross _ _ _ _ hcross]
  · rcases sub_min_zero_wrapped buy.quantity sell.quantity with hz | hz
    · left; rw [hz, afterFill_zero]
    · right; rw [hz, afterFill_zero]
  · intro hlt
    exact ⟨wrapInt32_of_range _ (by omega) hlt, by omega⟩
  · intro hlt
    exact ⟨wrapInt32_of_range _ (by omega) hlt, by omega⟩

/-- Witness of `negative_quantity_tolerated`: buy -5 at 100 against sell 3 at 99. -/
theorem negative_quantity_tolerated_witness :
    min (-5 : Int) 3 < 0 ∧
    bookFills32 (negativeBid lengthHash (bookIndex lengthHash "X"))
      = ⟨⟨true, -5, 100⟩, ⟨false, 3, 99⟩, min (-5) 3⟩ ::
        bookFills32 ⟨afterFill ⟨true, -5, 100⟩ [] (wrapInt32 (-5 - min (-5) 3)),
          afterFill ⟨false, 3, 99⟩ [] (wrapInt32 (3 - min (-5) 3))⟩ ∧
    matchOrder32 (negativeBid lengthHash) (bookIndex lengthHash "X")
      = matchBook32 ⟨afterFill ⟨true, -5, 100⟩ [] (wrapInt32 (-5 - min (-5) 3)),
          afterFill ⟨false, 3, 99⟩ [] (wrapInt32 (3 - min (-5) 3))⟩ ∧
    (afterFill ⟨true, -5, 100⟩ [] (wrapInt32 (-5 - min (-5) 3)) = [] ∨
      afterFill ⟨false, 3, 99⟩ [] (wrapInt32 (3 - min (-5) 3)) = []) ∧
    ((-5 : Int) - min (-5) 3 < 2 ^ 31 →
      wrapInt32 (-5 - min (-5) 3) = -5 - min (-5) 3 ∧ (-5 : Int) < -5 - min (-5) 3) ∧
    ((3 : Int) - min (-5) 3 < 2 ^ 31 →
      wrapInt32 (3 - min (-5) 3) = 3 - min (-5) 3 ∧ (3 : Int) < 3 - min (-5) 3) :=
  negative_quantity_tolerated (negativeBid lengthHash) (bookIndex lengthHash "X")
    ⟨true, -5, 100⟩ ⟨false, 3, 99⟩ [] []
    (by rw [negativeBid_book]) (by rw [negativeBid_book]) (by decide) (by decide)
    (by decide) (by decide)

/-! ## One thread alone in the matching loop -/

theorem chain_head_mem {cells : List Cell} {l : List Nat} {p : Nat}
    (h : Chain cells l (some p)) : ∃ rest c, l = p :: rest ∧ cells[p]? = some c ∧
      Chain cells rest c.next := by
  cases l with
  | nil => simp [Chain] at h
  | cons q rest =>
    obtain ⟨hq, c, hc, hrest⟩ := h
    cases hq
    exact ⟨rest, c, rfl, hc, hrest⟩

theorem chain_set_quantity {cells : List Cell} (p : Nat) (q : Int) (d : Cell) {l : List Nat}
    {head : Option Nat} (h : Chain cells l head) :
    Chain (cells.set p { cells.getD p d with quantity := q }) l head := by
  induction l generalizing head with
  | nil => exact h
  | cons x rest ih =>
    obtain ⟨hx, c, hc, hrest⟩ := h
    by_cases hpx : p = x
    · subst hpx
      have hlt : p < cells.length := (List.getElem?_eq_some_iff.1 hc).1
      refine ⟨hx, { cells.getD p d with quantity := q }, ?_, ?_⟩
      · rw [List.getElem?_set_self hlt]
      · have hn : (cells.getD p d).next = c.next := by simp [hc]
        show Chain _ rest (cells.getD p d).next
        rw [hn]
        exact ih hrest
    · refine ⟨hx, c, ?_, ih hrest⟩
      rw [List.getElem?_set_ne hpx]
      exact hc

theorem core_setQuantity {sh : Shared} {pending : List Nat} (p : Nat) (q : Int)
    (h : Core sh pending) : Core (sh.setQuantity p q) pending := by
  obtain ⟨buys, sells, hb, hs, hnd, hun, huse⟩ := h
  exact ⟨buys, sells, chain_set_quantity p q _ hb, chain_set_quantity p q _ hs, hnd, hun, huse⟩

theorem core_touch_buyHead {sh : Shared} {b : Nat} (h : Core sh []) (hb : sh.buyHead = some b) :
    sh.touch b = sh := by
  obtain ⟨buys, sells, cb, -, hnd, hun, -⟩ := h
  rw [hb] at cb
  obtain ⟨rest, c, rfl, -, -⟩ := chain_head_mem cb
  have hnot : b ∉ sh.unlinked := by
    intro hmem
    have := List.nodup_append.1 hnd
    exact this.2.2 (by simp) hmem
  rw [hun, List.append_nil] at hnot
  simp [Shared.touch, hnot]

theorem core_touch_sellHead {sh : Shared} {s : Nat} (h : Core sh [])
    (hs : sh.sellHead = some s) : sh.touch s = sh := by
  obtain ⟨buys, sells, -, cs, hnd, hun, -⟩ := h
  rw [hs] at cs
  obtain ⟨rest, c, rfl, -, -⟩ := chain_head_mem cs
  have hnot : s ∉ sh.unlinked := by
    intro hmem
    have := List.nodup_append.1 hnd
    exact this.2.2 (by simp) hmem
  rw [hun, List.append_nil] at hnot
  simp [Shared.touch, hnot]

theorem core_unlink_buy {sh : Shared} {b : Nat} (h : Core sh []) (hb : sh.buyHead = some b) :
    Core { sh with buyHead := (sh.cell b).next, unlinked := sh.unlinked ++ [b] } [b] := by
  obtain ⟨buys, sells, cb, cs, hnd, hun, huse⟩ := h
  rw [hb] at cb
  obtain ⟨rest, c, rfl, hc, hrest⟩ := chain_head_mem cb
  have hcell : sh.cell b = c := by simp [Shared.cell, hc]
  refine ⟨rest, sells, ?_, cs, ?_, ?_, huse⟩
  · rw [hcell]
    exact hrest
  · have e1 : rest ++ sells ++ (sh.unlinked ++ [b]) = (rest ++ sells ++ sh.unlinked) ++ [b] := by
      simp only [List.append_assoc]
    have e2 : b :: rest ++ sells ++ sh.unlinked = b :: (rest ++ sells ++ sh.unlinked) := rfl
    rw [e1]
    rw [e2] at hnd
    exact (List.perm_append_singleton b _).nodup_iff.2 hnd
  · show sh.unlinked ++ [b] = sh.freed ++ [b]
    rw [hun, List.append_nil]

theorem core_unlink_sell {sh : Shared} {s : Nat} (h : Core sh []) (hs : sh.sellHead = some s) :
    Core { sh with sellHead := (sh.cell s).next, unlinked := sh.unlinked ++ [s] } [s] := by
  obtain ⟨buys, sells, cb, cs, hnd, hun, huse⟩ := h
  rw [hs] at cs
  obtain ⟨rest, c, rfl, hc, hrest⟩ := chain_head_mem cs
  have hcell : sh.cell s = c := by simp [Shared.cell, hc]
  refine ⟨buys, rest, cb, ?_, ?_, ?_, huse⟩
  · rw [hcell]
    exact hrest
  · have e1 : buys ++ rest ++ (sh.unlinked ++ [s]) = (buys ++ rest ++ sh.unlinked) ++ [s] := by
      simp only [List.append_assoc]
    have p2 : (buys ++ s :: rest ++ sh.unlinked).Perm (s :: (buys ++ rest ++ sh.unlinked)) := by
      have := @List.perm_middle _ s buys (rest ++ sh.unlinked)
      simpa only [List.append_assoc, List.cons_append] using this
    rw [e1]
    exact (List.perm_append_singleton s _).nodup_iff.2 (p2.nodup_iff.1 hnd)
  · show sh.unlinked ++ [s] = sh.freed ++ [s]
    rw [hun, List.append_nil]

theorem core_delete {sh : Shared} {p : Nat} (h : Core sh [p]) :
    Core { sh with freed := sh.freed ++ [p] } [] := by
  obtain ⟨buys, sells, cb, cs, hnd, hun, huse⟩ := h
  exact ⟨buys, sells, cb, cs, hnd, by simpa using hun, huse⟩

theorem activeInv_enterOrLeave {sh : Shared} (buy : Option Nat) (tmp mq : Int)
    (succ : Option Nat) (hc : Core sh []) (hb : buy = sh.buyHead) :
    ActiveInv ⟨enterOrLeave buy sh.sellHead, buy, sh.sellHead, tmp, mq, succ⟩ sh := by
  cases hbuy : buy with
  | none => simpa [enterOrLeave, ActiveInv] using hc
  | some b =>
    cases hsell : sh.sellHead with
    | none => simpa [enterOrLeave, ActiveInv] using hc
    | some s =>
      simp only [enterOrLeave, Option.isSome_some, Bool.and_self, if_true, ActiveInv]
      exact ⟨hc, b, s, rfl, rfl, by rw [← hb, hbuy], hsell⟩

/-- A step of a thread that runs the loop alone keeps the memory in order. -/
theorem step_activeInv (l : Local) (sh : Shared) (h : ActiveInv l sh) :
    ActiveInv (l.step sh).1 (l.step sh).2 := by
  obtain ⟨pc, buy, sell, tmp, mq, succ⟩ := l
  cases pc with
  | loadBuy =>
    simp only [ActiveInv] at h
    simp only [Local.step, ActiveInv]
    exact ⟨h, trivial⟩
  | loadSell =>
    simp only [ActiveInv] at h
    simp only [Local.step]
    exact activeInv_enterOrLeave buy tmp mq succ h.1 h.2
  | reloadBuy =>
    simp only [ActiveInv] at h
    simp only [Local.step, ActiveInv]
    exact ⟨h, trivial⟩
  | reloadSell =>
    simp only [ActiveInv] at h
    simp only [Local.step]
    exact activeInv_enterOrLeave buy tmp mq succ h.1 h.2
  | done =>
    simp only [ActiveInv] at h
    simp only [Local.step, ActiveInv]
    exact h
  | readBuyPrice =>
    simp only [ActiveInv] at h
    obtain ⟨hc, b, s, rfl, rfl, hb, hs⟩ := h
    simp only [Local.step, core_touch_buyHead hc hb, ActiveInv]
    exact ⟨hc, b, s, rfl, rfl, hb, hs⟩
  | readSellPrice =>
    simp only [ActiveInv] at h
    obtain ⟨hc, b, s, rfl, rfl, hb, hs⟩ := h
    simp only [Local.step, core_touch_sellHead hc hs]
    split
    · exact ⟨hc, b, s, rfl, rfl, hb, hs⟩
    · exact hc
  | readBuyQty =>
    simp only [ActiveInv] at h
    obtain ⟨hc, b, s, rfl, rfl, hb, hs⟩ := h
    simp only [Local.step, core_touch_buyHead hc hb, ActiveInv]
    exact ⟨hc, b, s, rfl, rfl, hb, hs⟩
  | readSellQty =>
    simp only [ActiveInv] at h
    obtain ⟨hc, b, s, rfl, rfl, hb, hs⟩ := h
    simp only [Local.step, core_touch_sellHead hc hs, ActiveInv]
    exact ⟨hc, b, s, rfl, rfl, hb, hs⟩
  | readBuyForSub =>
    simp only [ActiveInv] at h
    obtain ⟨hc, b, s, rfl, rfl, hb, hs⟩ := h
    simp only [Local.step, core_touch_buyHead hc hb, ActiveInv]
    exact ⟨hc, b, s, rfl, rfl, hb, hs⟩
  | writeBuy =>
    simp only [ActiveInv] at h
    obtain ⟨hc, b, s, rfl, rfl, hb, hs⟩ := h
    simp only [Local.step, core_touch_buyHead hc hb, ActiveInv]
    exact ⟨core_setQuantity _ _ hc, b, s, rfl, rfl, hb, hs⟩
  | readSellForSub =>
    simp only [ActiveInv] at h
    obtain ⟨hc, b, s, rfl, rfl, hb, hs⟩ := h
    simp only [Local.step, core_touch_sellHead hc hs, ActiveInv]
    exact ⟨hc, b, s, rfl, rfl, hb, hs⟩
  | writeSell =>
    simp only [ActiveInv] at h
    obtain ⟨hc, b, s, rfl, rfl, hb, hs⟩ := h
    simp only [Local.step, core_touch_sellHead hc hs, ActiveInv]
    exact ⟨core_setQuantity _ _ hc, b, s, rfl, rfl, hb, hs⟩
  | testBuy =>
    simp only [ActiveInv] at h
    obtain ⟨hc, b, s, rfl, rfl, hb, hs⟩ := h
    simp only [Local.step, core_touch_buyHead hc hb]
    split
    · exact ⟨hc, b, s, rfl, rfl, hb, hs⟩
    · exact ⟨hc, s, rfl, hs⟩
  | readBuyNext =>
    simp only [ActiveInv] at h
    obtain ⟨hc, b, s, rfl, rfl, hb, hs⟩ := h
    simp only [Local.step, core_touch_buyHead hc hb, ActiveInv]
    exact ⟨hc, b, s, rfl, rfl, hb, hs, rfl⟩
  | casBuy =>
    simp only [ActiveInv] at h
    obtain ⟨hc, b, s, rfl, rfl, hb, hs, hsucc⟩ := h
    simp only [Local.step, hb, if_true, ActiveInv]
    refine ⟨b, s, rfl, rfl, hs, ?_⟩
    rw [show succ = (sh.cell b).next from hsucc]
    exact core_unlink_buy hc hb
  | deleteBuy =>
    simp only [ActiveInv] at h
    obtain ⟨b, s, rfl, rfl, hs, hc⟩ := h
    simp only [Local.step, ActiveInv]
    exact ⟨core_delete hc, s, rfl, hs⟩
  | testSell =>
    simp only [ActiveInv] at h
    obtain ⟨hc, s, rfl, hs⟩ := h
    cases buy <;>
    · simp only [Local.step, core_touch_sellHead hc hs]
      split
      · exact ⟨hc, s, rfl, hs⟩
      · exact hc
  | readSellNext =>
    simp only [ActiveInv] at h
    obtain ⟨hc, s, rfl, hs⟩ := h
    cases buy <;>
    · simp only [Local.step, core_touch_sellHead hc hs, ActiveInv]
      exact ⟨hc, s, rfl, hs, rfl⟩
  | casSell =>
    simp only [ActiveInv] at h
    obtain ⟨hc, s, rfl, hs, hsucc⟩ := h
    cases buy <;>
    · simp only [Local.step, hs, if_true, ActiveInv]
      refine ⟨s, rfl, ?_⟩
      rw [show succ = (sh.cell s).next from hsucc]
      exact core_unlink_sell hc hs
  | deleteSell =>
    simp only [ActiveInv] at h
    obtain ⟨s, rfl, hc⟩ := h
    cases buy <;>
    · simp only [Local.step, ActiveInv]
      exact core_delete hc

/-! ## Calls that run one after another -/

theorem idle_activeInv {l : Local} {sh : Shared} (hl : l.idle = true) :
    ActiveInv l sh ↔ Core sh [] := by
  simp only [Local.idle, Bool.or_eq_true, beq_iff_eq] at hl
  rcases hl with rfl | hl
  · simp [ActiveInv, Local.start]
  · obtain ⟨pc, buy, sell, tmp, mq, succ⟩ := l
    simp only at hl
    subst hl
    simp [ActiveInv]

theorem idle_holds {l : Local} (hl : l.idle = true) (p : Nat) : l.holds p = false := by
  simp only [Local.idle, Bool.or_eq_true, beq_iff_eq] at hl
  rcases hl with rfl | hl
  · simp [Local.holds, Local.start, Pc.buyLive, Pc.sellLive]
  · simp [Local.holds, hl, Pc.buyLive, Pc.sellLive]

theorem activeInv_core {l : Local} {sh : Shared} (h : ActiveInv l sh) :
    ∃ pending, Core sh pending ∧ (l.idle = true → pending = []) := by
  by_cases hl : l.idle = true
  · exact ⟨[], (idle_activeInv hl).1 h, fun _ => rfl⟩
  · obtain ⟨pc, buy, sell, tmp, mq, succ⟩ := l
    cases pc <;> simp only [ActiveInv] at h <;>
      first
      | exact ⟨[], h, fun c => absurd c hl⟩
      | exact ⟨[], h.1, fun c => absurd c hl⟩
      | (obtain ⟨b, s, -, -, -, hc⟩ := h
         exact ⟨_, hc, fun c => absurd c hl⟩)
      | (obtain ⟨s, -, hc⟩ := h
         exact ⟨_, hc, fun c => absurd c hl⟩)

/-- A step allowed by a sequential schedule keeps the machine orderly. -/
theorem orderly_step (m : Machine) (t : Nat) (h : m.Orderly)
    (hothers : ∀ l ∈ m.threads.eraseIdx t, l.idle = true) : (m.step t).Orderly := by
  have hidle : ∀ (u : Nat) (k : Local), u ≠ t → m.threads[u]? = some k → k.idle = true :=
    fun u k hu hk => hothers k (List.mem_eraseIdx_iff_getElem?.2 ⟨u, hu, hk⟩)
  obtain ⟨hheld, hrest⟩ := h
  cases hl : m.threads[t]? with
  | none =>
    simp only [Machine.step, hl]
    exact ⟨hheld, hrest⟩
  | some l =>
    have hact : ActiveInv l m.shared := by
      rcases hrest with ⟨hnil, -⟩ | ⟨t0, l0, h0, hinv, hoth⟩
      · rw [hnil] at hl
        simp at hl
      · by_cases ht : t0 = t
        · subst ht
          rw [h0] at hl
          cases hl
          exact hinv
        · have hcore := (idle_activeInv (hidle t0 l0 ht h0)).1 hinv
          exact (idle_activeInv (hoth t l (Ne.symm ht) hl)).2 hcore
    have hlt : t < m.threads.length := (List.getElem?_eq_some_iff.1 hl).1
    simp only [Machine.step, hl]
    refine ⟨?_, Or.inr ⟨t, (l.step m.shared).1, ?_, step_activeInv l m.shared hact, ?_⟩⟩
    · have hnone : m.heldNow t l = [] := by
        unfold Machine.heldNow
        cases l.deletes with
        | none => rfl
        | some p =>
          have : (m.threads.eraseIdx t).any (fun other => other.holds p) = false := by
            rw [List.any_eq_false]
            intro x hx
            simp [idle_holds (hothers x hx) p]
          simp [this]
      rw [hheld, hnone]
      rfl
    · simp [List.getElem?_set_self hlt]
    · intro u k hu hk
      rw [List.getElem?_set_ne (Ne.symm hu)] at hk
      exact hidle u k hu hk

theorem orderly_run (m : Machine) (schedule : List Nat) (h : m.Orderly)
    (hseq : m.sequential schedule = true) : (m.run schedule).Orderly := by
  induction schedule generalizing m with
  | nil => exact h
  | cons t rest ih =>
    simp only [Machine.sequential, Bool.and_eq_true, List.all_eq_true] at hseq
    exact ih (m.step t) (orderly_step m t h hseq.1) hseq.2

theorem fresh_orderly (m : Machine) (h : m.Fresh) : m.Orderly := by
  obtain ⟨⟨buys, sells, cb, cs, hnd⟩, hun, hfr, huse, hheld, hth⟩ := h
  have hcore : Core m.shared [] :=
    ⟨buys, sells, cb, cs, by rw [hun, List.append_nil]; exact hnd, by rw [hun, hfr]; rfl, huse⟩
  refine ⟨hheld, ?_⟩
  cases hthreads : m.threads with
  | nil => exact Or.inl ⟨rfl, hcore⟩
  | cons l rest =>
    have hstart : ∀ k ∈ l :: rest, k = Local.start := by rw [← hthreads]; exact hth
    refine Or.inr ⟨0, l, by simp, ?_, ?_⟩
    · have hl : l = Local.start := hstart l (List.mem_cons_self _ _)
      rw [hl]
      simpa [ActiveInv, Local.start] using hcore
    · intro u k _ hk
      have hk' : k = Local.start := hstart k (List.getElem?_mem hk)
      rw [hk']
      simp [Local.idle]

set_option maxRecDepth 100000 in
/-- C14, counterexample: two threads are in the matching loop of the same book. On the
book of `twoThreads`, thread 0 loads both heads, thread 1 then runs the whole loop and
deletes both nodes while thread 0 holds pointers to them, and the next step of thread 0
reads the freed node 0. On the book of `fourNodes`, thread 1 unlinks and deletes node 0
before the exchange of thread 0 on it, which fails and leaves the new head, node 2, in
`buy`; thread 0 deletes node 2 while it is still linked, and thread 1 deletes it again
after unlinking it: node 2 is freed twice. -/
theorem overlapping_calls_free_held_nodes :
    (twoThreads.run overlappingSchedule).heldAtFree = [0, 1] ∧
    (twoThreads.run overlappingSchedule).shared.usedAfterFree = [0] ∧
    (fourNodes.run doubleFreeSchedule).shared.unlinked = [0, 1, 2, 3] ∧
    (fourNodes.run doubleFreeSchedule).shared.freed = [0, 2, 1, 2, 3] := by
  decide

/-- C14, amended (exactly-once retirement when calls do not overlap): on a book whose
lists are chains of distinct nodes, along every schedule in which the threads run the
matching loop one after another, no node is unlinked more than once, no node is freed
more than once, the freed nodes are the unlinked ones in the same order (all of them
once every thread is outside the loop), no node is freed while another thread holds
a pointer to it, and no freed node is accessed. -/
theorem sequential_retirement (m : Machine) (schedule : List Nat) (hfresh : m.Fresh)
    (hseq : m.sequential schedule = true) :
    (m.run schedule).shared.unlinked.Nodup ∧
    (m.run schedule).shared.freed.Nodup ∧
    (m.run schedule).shared.freed <+: (m.run schedule).shared.unlinked ∧
    ((∀ l ∈ (m.run schedule).threads, l.idle = true) →
      (m.run schedule).shared.freed = (m.run schedule).shared.unlinked) ∧
    (m.run schedule).heldAtFree = [] ∧
    (m.run schedule).shared.usedAfterFree = [] := by
  obtain ⟨hheld, hrest⟩ := orderly_run m schedule (fresh_orderly m hfresh) hseq
  have key : ∃ pending, Core (m.run schedule).shared pending ∧
      ((∀ l ∈ (m.run schedule).threads, l.idle = true) → pending = []) := by
    rcases hrest with ⟨-, hcore⟩ | ⟨t, l, hl, hinv, -⟩
    · exact ⟨[], hcore, fun _ => rfl⟩
    · obtain ⟨pending, hcore, hp⟩ := activeInv_core hinv
      exact ⟨pending, hcore, fun hall => hp (hall l (List.getElem?_mem hl))⟩
  obtain ⟨pending, ⟨buys, sells, -, -, hnd, hun, huse⟩, hp⟩ := key
  have hu : (m.run schedule).shared.unlinked.Nodup := (List.nodup_append.1 hnd).2.1
  have hpre : (m.run schedule).shared.freed <+: (m.run schedule).shared.unlinked :=
    ⟨pending, hun.symm⟩
  refine ⟨hu, hu.sublist hpre.sublist, hpre, ?_, hheld, huse⟩
  intro hall
  rw [hun, hp hall, List.append_nil]

set_option maxRecDepth 100000 in
/-- Witness of `sequential_retirement`: thread 0 runs the whole loop on the book of
`twoThreads`, unlinking and freeing both nodes, and thread 1 runs it afterwards. -/
theorem sequential_retirement_witness :
    twoThreads.Fresh ∧ twoThreads.sequential sequentialSchedule = true ∧
    (twoThreads.run sequentialSchedule).shared.unlinked = [0, 1] ∧
    (twoThreads.run sequentialSchedule).shared.unlinked.Nodup ∧
    (twoThreads.run sequentialSchedule).shared.freed.Nodup ∧
    (twoThreads.run sequentialSchedule).shared.freed
      <+: (twoThreads.run sequentialSchedule).shared.unlinked ∧
    ((∀ l ∈ (twoThreads.run sequentialSchedule).threads, l.idle = true) →
      (twoThreads.run sequentialSchedule).shared.freed
        = (twoThreads.run sequentialSchedule).shared.unlinked) ∧
    (twoThreads.run sequentialSchedule).heldAtFree = [] ∧
    (twoThreads.run sequentialSchedule).shared.usedAfterFree = [] :=
  have hfresh : twoThreads.Fresh :=
    ⟨⟨[0], [1], by simp [Chain, twoThreads], by simp [Chain, twoThreads], by decide⟩,
      rfl, rfl, rfl, rfl, by simp [twoThreads]⟩
  have hseq : twoThreads.sequential sequentialSchedule = true := by decide
  ⟨hfresh, hseq, by decide, sequential_retirement twoThreads sequentialSchedule hfresh hseq⟩

end StockTrading
